import Mathlib

/-!
Shallow embedding of the UAVCAN DSDL compiler back end
(`src/libuavcan/dsdl_compiler/dsdlc.py`): type mapping, dependency
collection, constant evaluation, whitespace normalization and output
path construction.  Text is modelled as `List Char`; Python string
primitives (`rstrip`, `splitlines`, `join`, `replace`, `float` literal
validation) are embedded as executable functions.
-/

namespace Dsdlc

/-- Text is modelled as a list of characters (a Python `str`). -/
abbrev Str := List Char

deriving instance DecidableEq for Except

/-- Python `str.isspace` for a single character: the CPython whitespace
table (code points 0x09-0x0D, 0x1C-0x1F, 0x20, 0x85, 0xA0, 0x1680,
0x2000-0x200A, 0x2028, 0x2029, 0x202F, 0x205F, 0x3000). -/
def pyIsSpace (c : Char) : Bool :=
  let n := c.toNat
  (0x09 ≤ n && n ≤ 0x0d) || (0x1c ≤ n && n ≤ 0x1f) || n == 0x20 ||
  n == 0x85 || n == 0xa0 || n == 0x1680 || (0x2000 ≤ n && n ≤ 0x200a) ||
  n == 0x2028 || n == 0x2029 || n == 0x202f || n == 0x205f || n == 0x3000

/-- The line-boundary characters of Python `str.splitlines`:
0x0A, 0x0B, 0x0C, 0x0D, 0x1C, 0x1D, 0x1E, 0x85, 0x2028, 0x2029
(the pair `\r\n` is treated as a single boundary by `pySplitlines`). -/
def isLineBoundary (c : Char) : Bool :=
  let n := c.toNat
  (0x0a ≤ n && n ≤ 0x0d) || (0x1c ≤ n && n ≤ 0x1e) ||
  n == 0x85 || n == 0x2028 || n == 0x2029

/-- Python `str.rstrip()`: remove all trailing whitespace characters. -/
def pyRstrip (s : Str) : Str := (s.reverse.dropWhile pyIsSpace).reverse

/-- Python `str.lstrip()`: remove all leading whitespace characters. -/
def pyLstrip (s : Str) : Str := s.dropWhile pyIsSpace

/-- Python `str.strip()`. -/
def pyStrip (s : Str) : Str := pyRstrip (pyLstrip s)

/-- Python `str.splitlines()`: split at every line boundary character,
with `\r\n` consumed as one boundary; a trailing boundary does not
produce a trailing empty line. -/
def pySplitlines : Str → List Str
  | [] => []
  | '\r' :: '\n' :: r => [] :: pySplitlines r
  | c :: r =>
    if isLineBoundary c then [] :: pySplitlines r
    else
      match pySplitlines r with
      | [] => [[c]]
      | l :: ls => (c :: l) :: ls

/-- Python `sep.join(parts)`. -/
def joinSep (sep : Str) : List Str → Str
  | [] => []
  | [l] => l
  | l :: ls => l ++ sep ++ joinSep sep ls

/-- Recursion core of Python `str.replace` for a nonempty pattern:
scan left to right, replace each (non-overlapping, leftmost) occurrence
of `pat` by `rep` and continue after the replaced text.  `fuel` only
bounds the recursion; any `fuel ≥ s.length` gives the same result
(`pyReplaceGo_fuel`). -/
def pyReplaceGo (pat rep : Str) : Nat → Str → Str
  | _, [] => []
  | 0, s => s
  | fuel + 1, c :: rest =>
    if pat.isPrefixOf (c :: rest) then
      rep ++ pyReplaceGo pat rep fuel ((c :: rest).drop pat.length)
    else
      c :: pyReplaceGo pat rep fuel rest

/-- Python `s.replace(pat, rep)`.  Every call in the source uses a
nonempty pattern; for an empty pattern this embedding returns `s`
unchanged. -/
def pyReplace (pat rep s : Str) : Str :=
  if pat = [] then s else pyReplaceGo pat rep s.length s

/-- Python `str(n)` for a nonnegative integer (the `%d` formatting used
by the source). -/
def natStr (n : Nat) : Str := (Nat.repr n).data

/- ----------------------------------------------------------------- -/
/- Python float literal validation (`float(s)` used only for its
   accept/reject behaviour at line 143 of the source).               -/
/- ----------------------------------------------------------------- -/

/-- ASCII decimal digit. -/
def isDigit (c : Char) : Bool := '0' ≤ c && c ≤ '9'

/-- Lower-case an ASCII letter (used for the case-insensitive
`inf`/`infinity`/`nan` forms accepted by Python `float`). -/
def lowerAscii (c : Char) : Char :=
  if 'A' ≤ c && c ≤ 'Z' then Char.ofNat (c.toNat + 32) else c

/-- Consume the rest of a digit group after its first digit: digits,
with single underscores allowed only between digits (PEP 515). -/
def chewDigits : Str → Str
  | [] => []
  | c :: r =>
    if isDigit c then chewDigits r
    else if c = '_' then
      match r with
      | d :: r2 => if isDigit d then chewDigits r2 else c :: r
      | [] => c :: r
    else c :: r

/-- Consume one digit group (at least one digit); `none` if the input
does not start with a digit; returns the remainder. -/
def parseDigits : Str → Option Str
  | c :: r => if isDigit c then some (chewDigits r) else none
  | [] => none

/-- Consume an optional exponent part (`e`/`E`, optional sign, digit
group); `none` on a malformed exponent; returns the remainder. -/
def parseExpOpt : Str → Option Str
  | [] => some []
  | c :: r =>
    if c = 'e' || c = 'E' then
      match r with
      | c2 :: r2 =>
        if c2 = '+' || c2 = '-' then parseDigits r2 else parseDigits (c2 :: r2)
      | [] => none
    else some (c :: r)

/-- Consume an unsigned numeric float form: `digits[.digits][exp]`,
`digits.[exp]` or `.digits[exp]`; returns the remainder. -/
def parseNumber (s : Str) : Option Str :=
  match parseDigits s with
  | some r1 =>
    match r1 with
    | '.' :: r =>
      (match parseDigits r with
       | some r2 => parseExpOpt r2
       | none => parseExpOpt r)
    | _ => parseExpOpt r1
  | none =>
    match s with
    | '.' :: r =>
      (match parseDigits r with
       | some r2 => parseExpOpt r2
       | none => none)
    | _ => none

/-- Whether CPython `float(s)` accepts the literal `s` (ASCII forms):
surrounding whitespace stripped, an optional sign, then either one of
the case-insensitive words `inf`, `infinity`, `nan`, or a numeric form.
Only the accept/reject behaviour is modelled, because the source uses
`float(...)` purely as a validity check. -/
def pyFloatValid (s : Str) : Bool :=
  let t := pyStrip s
  let u :=
    match t with
    | c :: r => if c = '+' || c = '-' then r else t
    | [] => []
  let low := u.map lowerAscii
  if low = ['i', 'n', 'f'] then true
  else if low = ['i', 'n', 'f', 'i', 'n', 'i', 't', 'y'] then true
  else if low = ['n', 'a', 'n'] then true
  else
    match parseNumber u with
    | some [] => true
    | _ => false

/- ----------------------------------------------------------------- -/
/- The schema type graph (the input contract of the stage).          -/
/- ----------------------------------------------------------------- -/

/-- Cast mode of a primitive type. -/
inductive CastMode where
  | saturated
  | truncated
deriving DecidableEq, Repr

/-- Kind of a primitive type. -/
inductive PrimitiveKind where
  | boolean
  | unsignedInt
  | signedInt
  | float
deriving DecidableEq, Repr

/-- Array mode. -/
inductive ArrayMode where
  | staticMode
  | dynamicMode
deriving DecidableEq, Repr

/-- A schema type node.  The three recognized categories (primitive,
array, compound) are the dedicated constructors; `unknownCategory s`
stands for a node whose category attribute holds any other value `s`
(the contract-violation case of `type_to_cpp_type`). -/
inductive SchemaType where
  | primitive (kind : PrimitiveKind) (bitlen : Nat) (castMode : CastMode)
  | array (valueType : SchemaType) (mode : ArrayMode) (maxSize : Nat)
  | compound (fullName : Str)
  | unknownCategory (category : Str)
deriving DecidableEq, Repr

/-- Whether the node's category is `CATEGORY_COMPOUND`
(the test `x.type.category == x.type.CATEGORY_COMPOUND`). -/
def SchemaType.isCompound : SchemaType → Bool
  | .compound _ => true
  | _ => false

/-- The node's `full_name` attribute (present on compound nodes; the
source only reads it under an assertion that the node is compound). -/
def SchemaType.full_name : SchemaType → Str
  | .compound n => n
  | _ => []

/-- The node's `value_type` attribute (present on array nodes). -/
def SchemaType.value_type : SchemaType → Option SchemaType
  | .array v _ _ => some v
  | _ => none

/-- The node's `bitlen` attribute (present on primitive nodes). -/
def SchemaType.bitlen : SchemaType → Nat
  | .primitive _ b _ => b
  | _ => 0

/-- The test `c.type.kind == c.type.KIND_FLOAT`. -/
def SchemaType.kindIsFloat : SchemaType → Bool
  | .primitive .float _ _ => true
  | _ => false

/-- All nodes of the tree carry a recognized category (the §3 input
contract: category is a closed three-value set). -/
def SchemaType.wellFormed : SchemaType → Bool
  | .primitive _ _ _ => true
  | .array v _ _ => v.wellFormed
  | .compound _ => true
  | .unknownCategory _ => false

/-- A field: `name` plus its schema type. -/
structure Attribute where
  name : Str
  type : SchemaType
deriving DecidableEq, Repr

/-- A named constant: its (primitive) type, the literal text as written
in the DSDL source, and the parser-derived numeric value used for
non-float kinds. -/
structure Constant where
  name : Str
  type : SchemaType
  string_value : Str
  value : Int
deriving DecidableEq, Repr

/- ----------------------------------------------------------------- -/
/- String constants of the source.                                   -/
/- ----------------------------------------------------------------- -/

def MAX_BITLEN_FOR_ENUM : Nat := 31

/-- `CPP_HEADER_EXTENSION = 'hpp'`. -/
def CPP_HEADER_EXTENSION : Str := "hpp".data

def sCastSaturate : Str := "::uavcan::CastModeSaturate".data
def sCastTruncate : Str := "::uavcan::CastModeTruncate".data
def sSignUnsigned : Str := "::uavcan::SignednessUnsigned".data
def sSignSigned : Str := "::uavcan::SignednessSigned".data
def sFloatSpecL : Str := "::uavcan::FloatSpec<".data
def sIntegerSpecL : Str := "::uavcan::IntegerSpec<".data
def sArrayL : Str := "::uavcan::Array<".data
def sArrayModeStatic : Str := "::uavcan::ArrayModeStatic".data
def sArrayModeDynamic : Str := "::uavcan::ArrayModeDynamic".data
def sCommaSpace : Str := ", ".data
def sGt : Str := ">".data
def sColons : Str := "::".data
def sDot : Str := ".".data
def sUnknownCategory : Str := "Unknown type category: ".data
def sNumericLimitsL : Str :=
  "::std::numeric_limits<typename ::uavcan::StorageType<typename ConstantTypes::".data
def sNumericLimitsR : Str := ">::Type>".data
def sInfinityCall : Str := "::infinity()".data
def sQuietNaNCall : Str := "::quiet_NaN()".data
def litInf : Str := "inf".data
def litPlusInf : Str := "+inf".data
def litMinusInf : Str := "-inf".data
def litNaN : Str := "nan".data
def sFloatError : Str := "could not convert string to float: ".data

/- ----------------------------------------------------------------- -/
/- The type mapper (`type_to_cpp_type`, lines 71-96).                -/
/- ----------------------------------------------------------------- -/

/-- The `cast_mode` lookup table of lines 73-76. -/
def castModeStr : CastMode → Str
  | .saturated => sCastSaturate
  | .truncated => sCastTruncate

/-- The `signedness` lookup table of lines 80-84 (the float kind never
reaches this table: it is dispatched to `FloatSpec` first). -/
def signednessStr : PrimitiveKind → Str
  | .boolean => sSignUnsigned
  | .unsignedInt => sSignUnsigned
  | .signedInt => sSignSigned
  | .float => []

/-- The `mode` lookup table of lines 88-91. -/
def arrayModeStr : ArrayMode → Str
  | .staticMode => sArrayModeStatic
  | .dynamicMode => sArrayModeDynamic

/-- `type_to_cpp_type(t)` (lines 71-96): map a schema type node to its
C++ type descriptor string; a node of unrecognized category raises
`DsdlCompilerException` (modelled as `Except.error` carrying the
message). -/
def type_to_cpp_type : SchemaType → Except Str Str
  | .primitive kind bitlen castMode =>
    if kind = .float then
      .ok (sFloatSpecL ++ natStr bitlen ++ sCommaSpace ++ castModeStr castMode ++ sGt)
    else
      .ok (sIntegerSpecL ++ natStr bitlen ++ sCommaSpace ++ signednessStr kind ++
            sCommaSpace ++ castModeStr castMode ++ sGt)
  | .array valueType mode maxSize =>
    match type_to_cpp_type valueType with
    | .error e => .error e
    | .ok v =>
      .ok (sArrayL ++ v ++ sCommaSpace ++ arrayModeStr mode ++ sCommaSpace ++
            natStr maxSize ++ sGt)
  | .compound fullName => .ok (sColons ++ pyReplace sDot sColons fullName)
  | .unknownCategory c => .error (sUnknownCategory ++ c)

/- ----------------------------------------------------------------- -/
/- Output file naming and the dependency collector.                  -/
/- ----------------------------------------------------------------- -/

/-- `type_output_filename(t)` (lines 33-35): `full_name` with every `.`
replaced by the platform path separator `sep` (`os.path.sep`), plus
`'.' + CPP_HEADER_EXTENSION`.  The source asserts the node is compound
before reading `full_name`. -/
def type_output_filename (sep : Char) (t : SchemaType) : Str :=
  pyReplace sDot [sep] t.full_name ++ '.' :: CPP_HEADER_EXTENSION

/-- `fields_includes(fields)` (lines 102-103): the set of output
filenames of the types of those fields whose own type category is
compound.  A Python `set` of strings is modelled as a `Finset`. -/
def fields_includes (sep : Char) (fields : List Attribute) : Finset Str :=
  ((fields.filter fun x => x.type.isCompound).map
    fun x => type_output_filename sep x.type).toFinset

/-- POSIX `os.path.join(a, b)` for one path component `b`: if `b` is
absolute it replaces `a`; otherwise a separator is inserted unless `a`
is empty or already ends with one. -/
def os_path_join (sep : Char) (a b : Str) : Str :=
  if b.head? = some sep then b
  else if a = [] ∨ a.getLast? = some sep then a ++ b
  else a ++ sep :: b

/-- The output path construction of `run_generator` (line 61):
`os.path.join(dest_dir, type_output_filename(t))`, where `dest_dir` is
already the absolutized destination root (`os.path.abspath` at line 57
is filesystem state and stays outside the embedding). -/
def output_file_path (sep : Char) (dest_abs : Str) (t : SchemaType) : Str :=
  os_path_join sep dest_abs (type_output_filename sep t)

/- ----------------------------------------------------------------- -/
/- The constant evaluator (`inject_constant_info`, lines 128-147).   -/
/- ----------------------------------------------------------------- -/

/-- The derived attributes attached to one constant. -/
structure EvaluatedConstant where
  cpp_use_enum : Bool
  cpp_value : Str
deriving DecidableEq, Repr

/-- The `numeric_limits` expression of line 132, parameterized by the
constant's name. -/
def numeric_limits (name : Str) : Str := sNumericLimitsL ++ name ++ sNumericLimitsR

/-- `numeric_limits_inf` of line 133. -/
def numeric_limits_inf (name : Str) : Str := numeric_limits name ++ sInfinityCall

/-- The `special_values` table lookup of lines 134-140 (exact,
case-sensitive string keys). -/
def special_value (name lit : Str) : Option Str :=
  if lit = litInf then some (numeric_limits_inf name)
  else if lit = litPlusInf then some (numeric_limits_inf name)
  else if lit = litMinusInf then some ('-' :: numeric_limits_inf name)
  else if lit = litNaN then some (numeric_limits name ++ sQuietNaNCall)
  else none

/-- The per-constant body of `inject_constant_info` (lines 128-147):
float constants get `cpp_use_enum = False` and either a special-value
expression or (after `float(...)` validation) the literal verbatim;
other constants get the literal verbatim and
`cpp_use_enum = (value >= 0 and bitlen <= MAX_BITLEN_FOR_ENUM)`.
A failed `float(...)` raises `ValueError`, modelled as `Except.error`. -/
def inject_constant_info (c : Constant) : Except Str EvaluatedConstant :=
  if c.type.kindIsFloat then
    match special_value c.name c.string_value with
    | some v => .ok ⟨false, v⟩
    | none =>
      if pyFloatValid c.string_value then .ok ⟨false, c.string_value⟩
      else .error (sFloatError ++ c.string_value)
  else
    .ok ⟨decide (0 ≤ c.value) && decide (c.type.bitlen ≤ MAX_BITLEN_FOR_ENUM),
         c.string_value⟩

/- ----------------------------------------------------------------- -/
/- The emitter's whitespace normalization (lines 163-166).           -/
/- ----------------------------------------------------------------- -/

/-- Line 163: `'\n'.join(x.rstrip() for x in text.splitlines())`. -/
def strip_lines (text : Str) : Str :=
  joinSep ['\n'] ((pySplitlines text).map pyRstrip)

/-- First substitution of line 164: `replace('\n\n\n\n', '\n\n')`. -/
def collapse4 (s : Str) : Str :=
  pyReplace ['\n', '\n', '\n', '\n'] ['\n', '\n'] s

/-- Second substitution of line 164: `replace('\n\n\n', '\n\n')`. -/
def collapse3 (s : Str) : Str :=
  pyReplace ['\n', '\n', '\n'] ['\n', '\n'] s

/-- Line 165: replace every occurrence of an opening brace followed by
a blank line and an indented continuation by the brace directly
followed by the continuation. -/
def braceFix (s : Str) : Str :=
  pyReplace ['\x7b', '\n', '\n', ' '] ['\x7b', '\n', ' '] s

/-- The whole whitespace normalization applied by `generate_one_type`
to the rendered template output (lines 163-166). -/
def normalize (text : Str) : Str :=
  braceFix (collapse3 (collapse4 (strip_lines text)))

/-- Python `s.split(sep)` for a one-character separator (the source's
`full_name.split('.')`, lines 99 and 110): `""` splits to `[""]` and
every separator occurrence opens a new (possibly empty) part. -/
def pySplitChar (sep : Char) : Str → List Str
  | [] => [[]]
  | c :: r =>
    if c = sep then [] :: pySplitChar sep r
    else
      match pySplitChar sep r with
      | [] => [[c]]
      | l :: ls => (c :: l) :: ls

/- ----------------------------------------------------------------- -/
/- A run-length view of text, used to reason about the newline
   substitutions of the normalization: a string is decomposed into a
   list of (newline-run, following character) pairs plus a trailing
   newline-run.                                                      -/
/- ----------------------------------------------------------------- -/

/-- Rebuild a string from its run decomposition: each pair `(k, c)`
contributes `k` newlines followed by the (non-newline) character `c`,
and `ktail` trailing newlines close the string. -/
def fromRuns : List (Nat × Char) → Nat → Str
  | [], ktail => List.replicate ktail '\n'
  | (k, c) :: ps, ktail => List.replicate k '\n' ++ c :: fromRuns ps ktail

/-- Decompose a string into its run view (inverse of `fromRuns`). -/
def toRuns : Str → List (Nat × Char) × Nat
  | [] => ([], 0)
  | c :: r =>
    if c = '\n' then
      match toRuns r with
      | ([], ktail) => ([], ktail + 1)
      | ((k, ch) :: ps, ktail) => ((k + 1, ch) :: ps, ktail)
    else ((0, c) :: (toRuns r).1, (toRuns r).2)

/-- The effect of one global `replace` of `m` newlines by `r` newlines
on the length of one maximal newline run. -/
def runMap (m r k : Nat) : Nat := r * (k / m) + k % m

/-- The effect of the brace substitution (line 165) in the run view:
an opening brace followed by a run of exactly two newlines and a
space-headed continuation loses one newline. -/
def braceRuns : List (Nat × Char) → List (Nat × Char)
  | [] => []
  | [p] => [p]
  | (k1, c1) :: (k2, c2) :: rest =>
    if c1 = '\x7b' ∧ k2 = 2 ∧ c2 = ' ' then
      (k1, c1) :: (k2 - 1, c2) :: braceRuns rest
    else
      (k1, c1) :: braceRuns ((k2, c2) :: rest)

/-- The run decompositions produced by `strip_lines`: no character is
a line boundary, a character directly followed by a positive newline
run is not whitespace (its line was `rstrip`ped), and the last
character is not whitespace (so in particular the text does not end in
a newline). -/
def GoodRuns (ps : List (Nat × Char)) : Prop :=
  (∀ p ∈ ps, isLineBoundary p.2 = false) ∧
  List.Chain' (fun p q : Nat × Char => 0 < q.1 → pyIsSpace p.2 = false) ps ∧
  (∀ p : Nat × Char, ps.getLast? = some p → pyIsSpace p.2 = false)

/-- The number of leading newlines of a string. -/
def leadNL : Str → Nat
  | [] => 0
  | c :: r => if c = '\n' then leadNL r + 1 else 0

/- ----------------------------------------------------------------- -/
/- Concrete inputs used by witnesses and counterexamples.            -/
/- ----------------------------------------------------------------- -/

def exConstName : Str := "A".data
def exNameFA : Str := "fa".data
def exNameFB : Str := "fb".data
def exNameFC : Str := "fc".data
def exFullNameAX : Str := "a.X".data
def exFullNameNsX : Str := "ns.X".data
def exFullNameNsFoo : Str := "ns.Foo".data
def exOutDir : Str := "/out".data
def exOutPath : Str := "/out/ns/Foo.hpp".data
def exBadCategory : Str := "vector".data
def litZero : Str := "0".data
def litINF : Str := "INF".data
def lit25 : Str := "2.5".data
def exSixNl : Str := "a\n\n\n\n\n\nb".data
def exTwoNl : Str := "\n\n".data
def exWitnessText : Str := "a \n\n\n\n\nb".data
def exBoolSpec : Str :=
  sIntegerSpecL ++ natStr 1 ++ sCommaSpace ++ sSignUnsigned ++ sCommaSpace ++
    sCastSaturate ++ sGt

/- ================================================================= -/
/- Lemmas about the embedded Python string primitives.               -/
/- ================================================================= -/

theorem pyReplaceGo_nil (pat rep : Str) (fuel : Nat) :
    pyReplaceGo pat rep fuel [] = [] := by
  cases fuel <;> rfl

theorem pyReplaceGo_fuel (pat rep : Str) (hpat : pat ≠ []) :
    ∀ (f1 f2 : Nat) (s : Str), s.length ≤ f1 → s.length ≤ f2 →
      pyReplaceGo pat rep f1 s = pyReplaceGo pat rep f2 s := by
  intro f1
  induction f1 with
  | zero =>
    intro f2 s hs1 _
    have : s = [] := List.eq_nil_of_length_eq_zero (Nat.le_zero.mp hs1)
    subst this
    simp [pyReplaceGo_nil]
  | succ k ih =>
    intro f2 s hs1 hs2
    match s with
    | [] => simp [pyReplaceGo_nil]
    | c :: rest =>
      match f2 with
      | 0 => exact absurd hs2 (by simp)
      | m + 1 =>
        show pyReplaceGo pat rep (k + 1) (c :: rest) =
          pyReplaceGo pat rep (m + 1) (c :: rest)
        simp only [pyReplaceGo]
        have hplen : 1 ≤ pat.length := List.length_pos.mpr hpat
        simp only [List.length_cons] at hs1 hs2
        by_cases h : pat.isPrefixOf (c :: rest)
        · rw [if_pos h, if_pos h]
          have hlen : ((c :: rest).drop pat.length).length ≤ k := by
            simp only [List.length_drop, List.length_cons]
            omega
          have hlen2 : ((c :: rest).drop pat.length).length ≤ m := by
            simp only [List.length_drop, List.length_cons]
            omega
          rw [ih m _ hlen hlen2]
        · rw [if_neg h, if_neg h]
          have hlen : rest.length ≤ k := by omega
          have hlen2 : rest.length ≤ m := by omega
          rw [ih m _ hlen hlen2]

theorem pyReplace_nil (pat rep : Str) : pyReplace pat rep [] = [] := by
  unfold pyReplace
  split
  · rfl
  · simp [pyReplaceGo_nil]

theorem pyReplace_cons_pos (pat rep : Str) (c : Char) (rest : Str)
    (hpat : pat ≠ []) (h : pat.isPrefixOf (c :: rest)) :
    pyReplace pat rep (c :: rest) =
      rep ++ pyReplace pat rep ((c :: rest).drop pat.length) := by
  have hplen : 1 ≤ pat.length := List.length_pos.mpr hpat
  unfold pyReplace
  rw [if_neg hpat, if_neg hpat, List.length_cons]
  simp only [pyReplaceGo, if_pos h]
  rw [pyReplaceGo_fuel pat rep hpat rest.length
    ((c :: rest).drop pat.length).length ((c :: rest).drop pat.length)
    (by simp only [List.length_drop, List.length_cons]; omega) (le_refl _)]

theorem pyReplace_cons_neg (pat rep : Str) (c : Char) (rest : Str)
    (h : pat.isPrefixOf (c :: rest) = false) :
    pyReplace pat rep (c :: rest) = c :: pyReplace pat rep rest := by
  have hpat : pat ≠ [] := by
    intro he
    subst he
    simp [List.isPrefixOf] at h
  unfold pyReplace
  rw [if_neg hpat, if_neg hpat, List.length_cons]
  simp only [pyReplaceGo, if_neg (by simp [h] :
    ¬ pat.isPrefixOf (c :: rest) = true)]

/-- `str.replace` leaves a string without any occurrence of the pattern
unchanged. -/
theorem pyReplace_of_not_infix (pat rep s : Str)
    (h : ¬ pat <:+: s) : pyReplace pat rep s = s := by
  induction s with
  | nil => exact pyReplace_nil pat rep
  | cons c rest ih =>
    have hnp : pat.isPrefixOf (c :: rest) = false := by
      rw [Bool.eq_false_iff]
      intro hp
      exact h (List.IsPrefix.isInfix (List.isPrefixOf_iff_prefix.mp hp))
    rw [pyReplace_cons_neg pat rep c rest hnp]
    rw [ih (fun hi => h (List.infix_cons_iff.mpr (Or.inr hi)))]

theorem pySplitChar_ne_nil (sep : Char) (s : Str) : pySplitChar sep s ≠ [] := by
  cases s with
  | nil => simp [pySplitChar]
  | cons c r =>
    simp only [pySplitChar]
    split
    · simp
    · split <;> simp

theorem joinSep_cons (sep : Str) (l : Str) (ls : List Str) (h : ls ≠ []) :
    joinSep sep (l :: ls) = l ++ sep ++ joinSep sep ls := by
  cases ls with
  | nil => exact absurd rfl h
  | cons l' ls' => rfl

/-- Python `s.replace(sep, rep)` for a one-character pattern is
`rep.join(s.split(sep))`. -/
theorem pyReplace_single_eq_joinSep (sep : Char) (rep : Str) (s : Str) :
    pyReplace [sep] rep s = joinSep rep (pySplitChar sep s) := by
  induction s with
  | nil => simp [pyReplace_nil, pySplitChar, joinSep]
  | cons c r ih =>
    by_cases hc : c = sep
    · subst hc
      have hp : ([c]).isPrefixOf (c :: r) := by simp [List.isPrefixOf]
      rw [pyReplace_cons_pos [c] rep c r (by simp) hp]
      simp only [List.length_cons, List.length_nil, Nat.zero_add, List.drop_one,
        List.tail_cons]
      rw [ih]
      have : pySplitChar c (c :: r) = [] :: pySplitChar c r := by
        simp [pySplitChar]
      rw [this, joinSep_cons rep [] _ (pySplitChar_ne_nil c r)]
      simp
    · have hp : ([sep]).isPrefixOf (c :: r) = false := by
        simp [List.isPrefixOf]
        intro he
        exact absurd he.symm hc
      rw [pyReplace_cons_neg [sep] rep c r hp, ih]
      have hsplit : pySplitChar sep (c :: r) =
          match pySplitChar sep r with
          | [] => [[c]]
          | l :: ls => (c :: l) :: ls := by
        simp [pySplitChar, hc]
      rw [hsplit]
      cases hrec : pySplitChar sep r with
      | nil => exact absurd hrec (pySplitChar_ne_nil sep r)
      | cons l ls =>
        cases ls with
        | nil => simp [joinSep]
        | cons l' ls' =>
          rw [joinSep_cons rep (c :: l) _ (by simp),
            joinSep_cons rep l _ (by simp)]
          simp

/-- Membership in the collected include set of `fields_includes`. -/
theorem mem_fields_includes (sep : Char) (fields : List Attribute) (p : Str) :
    p ∈ fields_includes sep fields ↔
      ∃ a ∈ fields, a.type.isCompound = true ∧ type_output_filename sep a.type = p := by
  unfold fields_includes
  rw [List.mem_toFinset, List.mem_map]
  constructor
  · rintro ⟨a, ha, rfl⟩
    have := List.mem_filter.mp ha
    exact ⟨a, this.1, this.2, rfl⟩
  · rintro ⟨a, ha, hc, rfl⟩
    exact ⟨a, List.mem_filter.mpr ⟨ha, hc⟩, rfl⟩

/- ================================================================= -/
/- The run view: round trips.                                        -/
/- ================================================================= -/

theorem toRuns_cons_other (c : Char) (r : Str) (hc : c ≠ '\n') :
    toRuns (c :: r) = ((0, c) :: (toRuns r).1, (toRuns r).2) := by
  simp [toRuns, hc]

theorem toRuns_cons_nl (r : Str) :
    toRuns ('\n' :: r) =
      match toRuns r with
      | ([], ktail) => ([], ktail + 1)
      | ((k, c) :: ps, ktail) => ((k + 1, c) :: ps, ktail) := by
  simp [toRuns]

theorem fromRuns_toRuns (s : Str) : fromRuns (toRuns s).1 (toRuns s).2 = s := by
  induction s with
  | nil => rfl
  | cons c r ih =>
    by_cases hc : c = '\n'
    · subst hc
      rw [toRuns_cons_nl]
      cases htr : toRuns r with
      | mk ps ktail =>
        rw [htr] at ih
        cases ps with
        | nil =>
          show fromRuns [] (ktail + 1) = '\n' :: r
          show List.replicate (ktail + 1) '\n' = '\n' :: r
          rw [List.replicate_succ]
          exact congrArg _ ih
        | cons p ps' =>
          cases p with
          | mk k ch =>
            show fromRuns ((k + 1, ch) :: ps') ktail = '\n' :: r
            show List.replicate (k + 1) '\n' ++ ch :: fromRuns ps' ktail = '\n' :: r
            rw [List.replicate_succ]
            exact congrArg _ ih
    · rw [toRuns_cons_other c r hc]
      show List.replicate 0 '\n' ++ c :: fromRuns (toRuns r).1 (toRuns r).2 = c :: r
      rw [ih]
      rfl

theorem toRuns_replicate_nl (k : Nat) :
    toRuns (List.replicate k '\n') = ([], k) := by
  induction k with
  | zero => rfl
  | succ n ih => rw [List.replicate_succ, toRuns_cons_nl, ih]

theorem toRuns_run_cons (k : Nat) (c : Char) (s : Str) (hc : c ≠ '\n') :
    toRuns (List.replicate k '\n' ++ c :: s) =
      ((k, c) :: (toRuns s).1, (toRuns s).2) := by
  induction k with
  | zero =>
    rw [List.replicate, List.nil_append, toRuns_cons_other c s hc]
  | succ n ih =>
    rw [List.replicate_succ, List.cons_append, toRuns_cons_nl, ih]

theorem toRuns_fromRuns (ps : List (Nat × Char)) (k : Nat)
    (h : ∀ p ∈ ps, p.2 ≠ '\n') : toRuns (fromRuns ps k) = (ps, k) := by
  induction ps with
  | nil => exact toRuns_replicate_nl k
  | cons p rest ih =>
    cases p with
    | mk k1 c1 =>
      show toRuns (List.replicate k1 '\n' ++ c1 :: fromRuns rest k) = _
      rw [toRuns_run_cons k1 c1 _ (h (k1, c1) (by simp)),
        ih (fun q hq => h q (by simp [hq]))]

theorem fromRuns_ne_nil (p : Nat × Char) (ps : List (Nat × Char)) (k : Nat) :
    fromRuns (p :: ps) k ≠ [] := by
  cases p with
  | mk k1 c1 =>
    show List.replicate k1 '\n' ++ c1 :: fromRuns ps k ≠ []
    simp

/- ================================================================= -/
/- Newline runs, prefixes and infixes.                               -/
/- ================================================================= -/

theorem prefix_replicate_nl_iff (j : Nat) (s : Str) :
    List.replicate j '\n' <+: s ↔ j ≤ leadNL s := by
  induction j generalizing s with
  | zero => simp
  | succ n ih =>
    cases s with
    | nil =>
      rw [List.replicate_succ]
      simp [leadNL]
    | cons c r =>
      rw [List.replicate_succ, List.cons_prefix_cons]
      by_cases hc : c = '\n'
      · subst hc
        simp [leadNL, ih]
      · simp [leadNL, hc, Ne.symm hc]

theorem leadNL_run_cons (k : Nat) (c : Char) (t : Str) (hc : c ≠ '\n') :
    leadNL (List.replicate k '\n' ++ c :: t) = k := by
  induction k with
  | zero => simp [leadNL, hc]
  | succ n ih => rw [List.replicate_succ, List.cons_append, leadNL, if_pos rfl, ih]

theorem leadNL_replicate (k : Nat) : leadNL (List.replicate k '\n') = k := by
  induction k with
  | zero => rfl
  | succ n ih => rw [List.replicate_succ, leadNL, if_pos rfl, ih]

theorem infix_replicate_nl_replicate (j k : Nat) :
    List.replicate j '\n' <:+: List.replicate k '\n' ↔ j ≤ k := by
  constructor
  · intro h
    have := h.sublist.length_le
    simpa using this
  · intro h
    refine List.IsPrefix.isInfix ?_
    rw [prefix_replicate_nl_iff, leadNL_replicate]
    exact h

theorem infix_replicate_nl_run (j h : Nat) (c : Char) (t : Str)
    (hj : 1 ≤ j) (hc : c ≠ '\n') :
    (List.replicate j '\n' <:+: List.replicate h '\n' ++ c :: t) ↔
      j ≤ h ∨ List.replicate j '\n' <:+: t := by
  induction h with
  | zero =>
    simp only [List.replicate, List.nil_append]
    rw [List.infix_cons_iff]
    constructor
    · rintro (hp | hi)
      · rw [prefix_replicate_nl_iff] at hp
        simp [leadNL, hc] at hp
        omega
      · exact Or.inr hi
    · rintro (hle | hi)
      · omega
      · exact Or.inr hi
  | succ n ih =>
    rw [List.replicate_succ, List.cons_append, List.infix_cons_iff, ih]
    rw [prefix_replicate_nl_iff]
    rw [show leadNL ('\n' :: (List.replicate n '\n' ++ c :: t)) = n + 1 by
      rw [leadNL, if_pos rfl, leadNL_run_cons n c t hc]]
    constructor
    · rintro (hle | hle | hi)
      · exact Or.inl (by omega)
      · exact Or.inl (by omega)
      · exact Or.inr hi
    · rintro (hle | hi)
      · exact Or.inl (by omega)
      · exact Or.inr (Or.inr hi)

theorem infix_replicate_nl_fromRuns (j : Nat) (ps : List (Nat × Char)) (k : Nat)
    (hj : 1 ≤ j) (h : ∀ p ∈ ps, p.2 ≠ '\n') :
    (List.replicate j '\n' <:+: fromRuns ps k) ↔
      (∃ p ∈ ps, j ≤ p.1) ∨ j ≤ k := by
  induction ps with
  | nil =>
    show (_ <:+: List.replicate k '\n') ↔ _
    rw [infix_replicate_nl_replicate]
    simp
  | cons p rest ih =>
    cases p with
    | mk k1 c1 =>
      show (_ <:+: List.replicate k1 '\n' ++ c1 :: fromRuns rest k) ↔ _
      rw [infix_replicate_nl_run j k1 c1 _ hj (h (k1, c1) (by simp)),
        ih (fun q hq => h q (by simp [hq]))]
      constructor
      · rintro (hle | ⟨q, hq, hle⟩ | hle)
        · exact Or.inl ⟨(k1, c1), by simp, hle⟩
        · exact Or.inl ⟨q, by simp [hq], hle⟩
        · exact Or.inr hle
      · rintro (⟨q, hq, hle⟩ | hle)
        · rcases List.mem_cons.mp hq with h1 | h2
          · subst h1
            exact Or.inl hle
          · exact Or.inr (Or.inl ⟨q, h2, hle⟩)
        · exact Or.inr (Or.inr hle)

/- ================================================================= -/
/- The two newline-collapsing substitutions, in the run view.        -/
/- ================================================================= -/

theorem runMap_small (m r k : Nat) (h : k < m) : runMap m r k = k := by
  unfold runMap
  rw [Nat.div_eq_of_lt h, Nat.mod_eq_of_lt h]
  simp

theorem runMap_step (m r k : Nat) (hm : 0 < m) (h : m ≤ k) :
    runMap m r k = r + runMap m r (k - m) := by
  unfold runMap
  have h1 : k / m = (k - m) / m + 1 := by
    conv_lhs => rw [show k = (k - m) + m by omega]
    rw [Nat.add_div_right _ hm]
  have h2 : k % m = (k - m) % m := by
    conv_lhs => rw [show k = (k - m) + m by omega]
    rw [Nat.add_mod_right]
  rw [h1, h2]
  ring

theorem runMap_pos_iff (m r k : Nat) (hm : 0 < m) (hr : 0 < r) :
    0 < runMap m r k ↔ 0 < k := by
  unfold runMap
  constructor
  · intro h
    by_contra hk
    have : k = 0 := by omega
    subst this
    simp at h
  · intro hk
    rcases Nat.lt_or_ge k m with hlt | hge
    · rw [Nat.div_eq_of_lt hlt, Nat.mod_eq_of_lt hlt]
      omega
    · have : 0 < k / m := Nat.div_pos hge hm
      have : 0 < r * (k / m) := Nat.mul_pos hr this
      omega

theorem notPrefix_nl_run (j k : Nat) (c : Char) (t : Str)
    (hk : k < j) (hc : c ≠ '\n') :
    (List.replicate j '\n').isPrefixOf (List.replicate k '\n' ++ c :: t) = false := by
  rw [Bool.eq_false_iff]
  intro hp
  have := List.isPrefixOf_iff_prefix.mp hp
  rw [prefix_replicate_nl_iff, leadNL_run_cons k c t hc] at this
  omega

theorem notPrefix_nl_tail (j k : Nat) (hk : k < j) :
    (List.replicate j '\n').isPrefixOf (List.replicate k '\n') = false := by
  rw [Bool.eq_false_iff]
  intro hp
  have := List.isPrefixOf_iff_prefix.mp hp
  rw [prefix_replicate_nl_iff, leadNL_replicate] at this
  omega

theorem replace_nl_skip (m r : Nat) (hm : 0 < m) :
    ∀ (k : Nat), k < m → ∀ (c : Char) (t : Str), c ≠ '\n' →
      pyReplace (List.replicate m '\n') (List.replicate r '\n')
          (List.replicate k '\n' ++ c :: t) =
        List.replicate k '\n' ++ c ::
          pyReplace (List.replicate m '\n') (List.replicate r '\n') t := by
  intro k
  induction k with
  | zero =>
    intro _ c t hc
    simp only [List.replicate, List.nil_append]
    rw [pyReplace_cons_neg _ _ _ _ (notPrefix_nl_run m 0 c t hm hc)]
  | succ n ih =>
    intro hk c t hc
    rw [List.replicate_succ, List.cons_append]
    rw [pyReplace_cons_neg _ _ _ _ (by
      have := notPrefix_nl_run m (n + 1) c t hk hc
      rw [List.replicate_succ, List.cons_append] at this
      exact this)]
    rw [ih (by omega) c t hc]
    simp

theorem replace_nl_tail_small (m r : Nat) :
    ∀ (k : Nat), k < m →
      pyReplace (List.replicate m '\n') (List.replicate r '\n')
        (List.replicate k '\n') = List.replicate k '\n' := by
  intro k
  induction k with
  | zero =>
    intro _
    exact pyReplace_nil _ _
  | succ n ih =>
    intro hk
    rw [List.replicate_succ]
    rw [pyReplace_cons_neg _ _ _ _ (by
      have := notPrefix_nl_tail m (n + 1) hk
      rw [List.replicate_succ] at this
      exact this)]
    rw [ih (by omega)]

theorem replace_nl_run (m r : Nat) (hm : 0 < m) :
    ∀ (k : Nat) (c : Char) (t : Str), c ≠ '\n' →
      pyReplace (List.replicate m '\n') (List.replicate r '\n')
          (List.replicate k '\n' ++ c :: t) =
        List.replicate (runMap m r k) '\n' ++ c ::
          pyReplace (List.replicate m '\n') (List.replicate r '\n') t := by
  intro k
  induction k using Nat.strong_induction_on with
  | _ k ih =>
    intro c t hc
    have hpatne : (List.replicate m '\n' : Str) ≠ [] := by
      simp only [ne_eq, List.replicate_eq_nil_iff]
      omega
    rcases Nat.lt_or_ge k m with hlt | hge
    · rw [replace_nl_skip m r hm k hlt c t hc, runMap_small m r k hlt]
    · have hm1 : m = (m - 1) + 1 := by omega
      have hsplit : List.replicate k '\n' ++ c :: t =
          '\n' :: (List.replicate (m - 1) '\n' ++
            (List.replicate (k - m) '\n' ++ c :: t)) := by
        rw [← List.cons_append, ← List.replicate_succ, ← List.append_assoc,
          ← List.replicate_add]
        congr 2
        omega
      rw [hsplit]
      have hpre : (List.replicate m '\n').isPrefixOf
          ('\n' :: (List.replicate (m - 1) '\n' ++
            (List.replicate (k - m) '\n' ++ c :: t))) = true := by
        apply List.isPrefixOf_iff_prefix.mpr
        rw [show ('\n' :: (List.replicate (m - 1) '\n' ++
            (List.replicate (k - m) '\n' ++ c :: t))) =
          List.replicate m '\n' ++ (List.replicate (k - m) '\n' ++ c :: t) by
            rw [hm1, List.replicate_succ]
            simp]
        exact List.prefix_append _ _
      rw [pyReplace_cons_pos _ _ _ _ hpatne hpre]
      rw [show (('\n' :: (List.replicate (m - 1) '\n' ++
          (List.replicate (k - m) '\n' ++ c :: t))).drop
            (List.replicate m '\n').length) =
          List.replicate (k - m) '\n' ++ c :: t by
        rw [show ('\n' :: (List.replicate (m - 1) '\n' ++
            (List.replicate (k - m) '\n' ++ c :: t))) =
          List.replicate m '\n' ++ (List.replicate (k - m) '\n' ++ c :: t) by
            rw [hm1, List.replicate_succ]
            simp]
        exact List.drop_left _ _]
      rw [ih (k - m) (by omega) c t hc]
      rw [runMap_step m r k hm hge, List.replicate_add, List.append_assoc]

theorem replace_nl_tail (m r : Nat) (hm : 0 < m) :
    ∀ (k : Nat),
      pyReplace (List.replicate m '\n') (List.replicate r '\n')
        (List.replicate k '\n') = List.replicate (runMap m r k) '\n' := by
  intro k
  induction k using Nat.strong_induction_on with
  | _ k ih =>
    have hpatne : (List.replicate m '\n' : Str) ≠ [] := by
      simp only [ne_eq, List.replicate_eq_nil_iff]
      omega
    rcases Nat.lt_or_ge k m with hlt | hge
    · rw [replace_nl_tail_small m r k hlt, runMap_small m r k hlt]
    · have hm1 : m = (m - 1) + 1 := by omega
      have hsplit : (List.replicate k '\n' : Str) =
          '\n' :: (List.replicate (m - 1) '\n' ++ List.replicate (k - m) '\n') := by
        rw [← List.replicate_add, ← List.replicate_succ]
        congr 1
        omega
      rw [hsplit]
      have hpre : (List.replicate m '\n').isPrefixOf
          ('\n' :: (List.replicate (m - 1) '\n' ++
            List.replicate (k - m) '\n')) = true := by
        apply List.isPrefixOf_iff_prefix.mpr
        rw [show ('\n' :: (List.replicate (m - 1) '\n' ++
            List.replicate (k - m) '\n')) =
          List.replicate m '\n' ++ List.replicate (k - m) '\n' by
            rw [hm1, List.replicate_succ]
            simp]
        exact List.prefix_append _ _
      rw [pyReplace_cons_pos _ _ _ _ hpatne hpre]
      rw [show (('\n' :: (List.replicate (m - 1) '\n' ++
          List.replicate (k - m) '\n')).drop (List.replicate m '\n').length) =
          List.replicate (k - m) '\n' by
        rw [show ('\n' :: (List.replicate (m - 1) '\n' ++
            List.replicate (k - m) '\n')) =
          List.replicate m '\n' ++ List.replicate (k - m) '\n' by
            rw [hm1, List.replicate_succ]
            simp]
        exact List.drop_left _ _]
      rw [ih (k - m) (by omega)]
      rw [runMap_step m r k hm hge, List.replicate_add]

theorem replace_nl_fromRuns (m r : Nat) (hm : 0 < m)
    (ps : List (Nat × Char)) (k : Nat) (h : ∀ p ∈ ps, p.2 ≠ '\n') :
    pyReplace (List.replicate m '\n') (List.replicate r '\n') (fromRuns ps k) =
      fromRuns (ps.map fun p => (runMap m r p.1, p.2)) (runMap m r k) := by
  induction ps with
  | nil => exact replace_nl_tail m r hm k
  | cons p rest ih =>
    cases p with
    | mk k1 c1 =>
      show pyReplace _ _ (List.replicate k1 '\n' ++ c1 :: fromRuns rest k) = _
      rw [replace_nl_run m r hm k1 c1 _ (h (k1, c1) (by simp)),
        ih (fun q hq => h q (by simp [hq]))]
      rfl

/- ================================================================= -/
/- The brace substitution, in the run view.                          -/
/- ================================================================= -/

theorem fromRuns_nil_eq (kt : Nat) :
    fromRuns [] kt = List.replicate kt '\n' := rfl

theorem fromRuns_cons_eq (k : Nat) (c : Char) (ps : List (Nat × Char)) (kt : Nat) :
    fromRuns ((k, c) :: ps) kt =
      List.replicate k '\n' ++ c :: fromRuns ps kt := rfl

theorem braceRuns_cons_of_ne (k : Nat) (c : Char) (t : List (Nat × Char))
    (hc : c ≠ '\x7b') : braceRuns ((k, c) :: t) = (k, c) :: braceRuns t := by
  cases t with
  | nil => rfl
  | cons p2 rest =>
    cases p2 with
    | mk k2 c2 =>
      simp only [braceRuns]
      rw [if_neg (by
        rintro ⟨h1, _, _⟩
        exact hc h1)]

theorem brace_skip_nl (j : Nat) (t : Str) :
    braceFix (List.replicate j '\n' ++ t) =
      List.replicate j '\n' ++ braceFix t := by
  induction j with
  | zero => simp [List.replicate]
  | succ n ih =>
    rw [List.replicate_succ, List.cons_append]
    unfold braceFix
    rw [pyReplace_cons_neg _ _ _ _ (by
      rw [Bool.eq_false_iff]
      intro hp
      have := List.isPrefixOf_iff_prefix.mp hp
      rw [List.cons_prefix_cons] at this
      exact absurd this.1 (by decide))]
    show '\n' :: braceFix _ = _
    rw [ih]
    simp [braceFix]

theorem brace_tail (k : Nat) :
    braceFix (List.replicate k '\n') = List.replicate k '\n' := by
  have := brace_skip_nl k []
  simpa [braceFix, pyReplace_nil] using this

theorem brace_char_neg (c : Char) (t : Str) (hc : c ≠ '\x7b') :
    braceFix (c :: t) = c :: braceFix t := by
  unfold braceFix
  rw [pyReplace_cons_neg _ _ _ _ (by
    rw [Bool.eq_false_iff]
    intro hp
    have := List.isPrefixOf_iff_prefix.mp hp
    rw [List.cons_prefix_cons] at this
    exact hc this.1.symm)]

theorem notPrefix_brace_tail (c1 : Char) (k : Nat) :
    (['\x7b', '\n', '\n', ' '] : Str).isPrefixOf
      (c1 :: List.replicate k '\n') = false := by
  rw [Bool.eq_false_iff]
  intro hp
  have hpre := List.isPrefixOf_iff_prefix.mp hp
  rw [List.cons_prefix_cons] at hpre
  obtain ⟨hc1, hrest⟩ := hpre
  match k, hrest with
  | 0, h => exact absurd h (by simp)
  | 1, h =>
    rw [show (List.replicate 1 '\n' : Str) = ['\n'] from rfl,
      List.cons_prefix_cons] at h
    exact absurd h.2 (by simp)
  | 2, h =>
    rw [show (List.replicate 2 '\n' : Str) = ['\n', '\n'] from rfl,
      List.cons_prefix_cons, List.cons_prefix_cons] at h
    exact absurd h.2.2 (by simp)
  | j + 3, h =>
    rw [show (List.replicate (j + 3) '\n' : Str) =
        '\n' :: '\n' :: '\n' :: List.replicate j '\n' by
      simp [List.replicate_succ], List.cons_prefix_cons, List.cons_prefix_cons,
      List.cons_prefix_cons] at h
    exact absurd h.2.2.1 (by decide)

theorem notPrefix_brace_mid (c1 : Char) (k2 : Nat) (c2 : Char) (t : Str)
    (hc2 : c2 ≠ '\n')
    (hcond : ¬ (c1 = '\x7b' ∧ k2 = 2 ∧ c2 = ' ')) :
    (['\x7b', '\n', '\n', ' '] : Str).isPrefixOf
      (c1 :: (List.replicate k2 '\n' ++ c2 :: t)) = false := by
  rw [Bool.eq_false_iff]
  intro hp
  have hpre := List.isPrefixOf_iff_prefix.mp hp
  rw [List.cons_prefix_cons] at hpre
  obtain ⟨hc1, hrest⟩ := hpre
  match k2, hrest with
  | 0, h =>
    rw [show (List.replicate 0 '\n' : Str) ++ c2 :: t = c2 :: t from rfl,
      List.cons_prefix_cons] at h
    exact hc2 h.1.symm
  | 1, h =>
    rw [show (List.replicate 1 '\n' : Str) ++ c2 :: t = '\n' :: c2 :: t from rfl,
      List.cons_prefix_cons, List.cons_prefix_cons] at h
    exact hc2 h.2.1.symm
  | 2, h =>
    rw [show (List.replicate 2 '\n' : Str) ++ c2 :: t =
        '\n' :: '\n' :: c2 :: t from rfl,
      List.cons_prefix_cons, List.cons_prefix_cons, List.cons_prefix_cons] at h
    exact hcond ⟨hc1.symm, rfl, h.2.2.1.symm⟩
  | j + 3, h =>
    rw [show (List.replicate (j + 3) '\n' : Str) ++ c2 :: t =
        '\n' :: '\n' :: '\n' :: (List.replicate j '\n' ++ c2 :: t) by
      simp [List.replicate_succ], List.cons_prefix_cons, List.cons_prefix_cons,
      List.cons_prefix_cons] at h
    exact absurd h.2.2.1 (by decide)

theorem brace_fromRuns :
    ∀ (ps : List (Nat × Char)), (∀ p ∈ ps, p.2 ≠ '\n') → ∀ (k : Nat),
      braceFix (fromRuns ps k) = fromRuns (braceRuns ps) k := by
  intro ps
  induction ps with
  | nil =>
    intro _ k
    exact brace_tail k
  | cons p tail ih =>
    intro h k
    cases p with
    | mk k1 c1 =>
      rw [fromRuns_cons_eq, brace_skip_nl]
      cases tail with
      | nil =>
        show _ ++ braceFix (c1 :: List.replicate k '\n') = _
        unfold braceFix
        rw [pyReplace_cons_neg _ _ _ _ (notPrefix_brace_tail c1 k)]
        show _ ++ c1 :: braceFix (List.replicate k '\n') = _
        rw [brace_tail]
        rfl
      | cons p2 rest =>
        cases p2 with
        | mk k2 c2 =>
          have hc2 : c2 ≠ '\n' := h (k2, c2) (by simp)
          by_cases hcond : c1 = '\x7b' ∧ k2 = 2 ∧ c2 = ' '
          · obtain ⟨hb, hk2, hsp⟩ := hcond
            subst hb
            subst hk2
            subst hsp
            have hX : fromRuns ((2, ' ') :: rest) k =
                '\n' :: '\n' :: ' ' :: fromRuns rest k := rfl
            have hLHS : braceFix ('\n' :: '\n' :: ' ' :: fromRuns rest k) =
                '\n' :: '\n' :: ' ' :: braceFix (fromRuns rest k) := by
              have hskip := brace_skip_nl 2 (' ' :: fromRuns rest k)
              have h2 : (List.replicate 2 '\n' : Str) ++ ' ' :: fromRuns rest k =
                  '\n' :: '\n' :: ' ' :: fromRuns rest k := rfl
              rw [h2] at hskip
              rw [hskip, brace_char_neg ' ' _ (by decide)]
              rfl
            have hrec : braceFix (fromRuns rest k) =
                fromRuns (braceRuns rest) k := by
              have hIH := ih (fun q hq => h q (by simp [hq])) k
              rw [hX, hLHS,
                braceRuns_cons_of_ne 2 ' ' rest (by decide),
                fromRuns_cons_eq,
                show (List.replicate 2 '\n' : Str) ++
                    ' ' :: fromRuns (braceRuns rest) k =
                  '\n' :: '\n' :: ' ' :: fromRuns (braceRuns rest) k from rfl]
                at hIH
              simpa using hIH
            rw [hX]
            unfold braceFix
            rw [pyReplace_cons_pos _ _ _ _ (by simp) (by
              apply List.isPrefixOf_iff_prefix.mpr
              rw [List.cons_prefix_cons, List.cons_prefix_cons,
                List.cons_prefix_cons, List.cons_prefix_cons]
              exact ⟨rfl, rfl, rfl, rfl, List.nil_prefix⟩)]
            rw [show (('\x7b' :: '\n' :: '\n' :: ' ' :: fromRuns rest k).drop
                (['\x7b', '\n', '\n', ' '] : Str).length) =
              fromRuns rest k from rfl]
            rw [show pyReplace ['\x7b', '\n', '\n', ' '] ['\x7b', '\n', ' ']
                (fromRuns rest k) = braceFix (fromRuns rest k) from rfl, hrec]
            rw [show braceRuns ((k1, '\x7b') :: (2, ' ') :: rest) =
                (k1, '\x7b') :: (2 - 1, ' ') :: braceRuns rest by
              simp [braceRuns]]
            rfl
          · rw [show c1 :: fromRuns ((k2, c2) :: rest) k =
                c1 :: (List.replicate k2 '\n' ++ c2 :: fromRuns rest k) from rfl]
            unfold braceFix
            rw [pyReplace_cons_neg _ _ _ _
              (notPrefix_brace_mid c1 k2 c2 _ hc2 hcond)]
            show _ ++ c1 :: braceFix (fromRuns ((k2, c2) :: rest) k) = _
            rw [ih (fun q hq => h q (by simp [hq])) k]
            rw [show braceRuns ((k1, c1) :: (k2, c2) :: rest) =
                (k1, c1) :: braceRuns ((k2, c2) :: rest) by
              simp only [braceRuns]
              rw [if_neg hcond]]
            rfl

/- ================================================================= -/
/- `splitlines`, `rstrip` and `join`: the first normalization step.  -/
/- ================================================================= -/

theorem pySplitlines_cons (c : Char) (r : Str) (hc : isLineBoundary c = false) :
    pySplitlines (c :: r) =
      match pySplitlines r with
      | [] => [[c]]
      | l :: ls => (c :: l) :: ls := by
  have hcr : c ≠ '\r' := by
    intro he
    subst he
    exact absurd hc (by decide)
  cases r with
  | nil => simp [pySplitlines, hc]
  | cons c2 r2 =>
    by_cases h2 : c2 = '\n'
    · subst h2
      simp [pySplitlines, hcr, hc]
    · simp [pySplitlines, hcr, hc, h2]

theorem pySplitlines_boundary (c : Char) (r : Str) (hc : isLineBoundary c = true)
    (hcr : c ≠ '\r') : pySplitlines (c :: r) = [] :: pySplitlines r := by
  cases r with
  | nil => simp [pySplitlines, hc]
  | cons c2 r2 =>
    by_cases h2 : c2 = '\n'
    · subst h2
      simp [pySplitlines, hcr, hc]
    · simp [pySplitlines, hcr, hc, h2]

theorem pySplitlines_nl (r : Str) :
    pySplitlines ('\n' :: r) = [] :: pySplitlines r :=
  pySplitlines_boundary '\n' r (by decide) (by decide)

theorem pySplitlines_ne_nil (c : Char) (r : Str) :
    pySplitlines (c :: r) ≠ [] := by
  by_cases hb : isLineBoundary c
  · by_cases hcr : c = '\r'
    · subst hcr
      cases r with
      | nil => simp [pySplitlines, show isLineBoundary '\r' = true by decide]
      | cons c2 r2 =>
        by_cases h2 : c2 = '\n'
        · subst h2
          simp [pySplitlines]
        · simp [pySplitlines, h2, show isLineBoundary '\r' = true by decide]
    · rw [pySplitlines_boundary c r hb hcr]
      simp
  · rw [pySplitlines_cons c r (by simpa using hb)]
    split <;> simp

theorem pySplitlines_eq_nil_iff (s : Str) : pySplitlines s = [] ↔ s = [] := by
  cases s with
  | nil => simp [pySplitlines]
  | cons c r =>
    constructor
    · intro h
      exact absurd h (pySplitlines_ne_nil c r)
    · intro h
      exact absurd h (by simp)

theorem pyRstrip_getLast_not_space (l : Str) :
    ∀ c, (pyRstrip l).getLast? = some c → pyIsSpace c = false := by
  intro c hc
  unfold pyRstrip at hc
  rw [List.getLast?_reverse] at hc
  revert hc
  generalize l.reverse = t
  induction t with
  | nil => simp
  | cons a t ih =>
    intro hc
    by_cases ha : pyIsSpace a
    · rw [List.dropWhile_cons_of_pos (by simpa using ha)] at hc
      exact ih hc
    · rw [List.dropWhile_cons_of_neg (by simpa using ha)] at hc
      simp only [List.head?_cons, Option.some.injEq] at hc
      subst hc
      simpa using ha

theorem pyRstrip_eq_of_getLast (l : Str)
    (h : ∀ c, l.getLast? = some c → pyIsSpace c = false) : pyRstrip l = l := by
  unfold pyRstrip
  have hrev : l.reverse.dropWhile pyIsSpace = l.reverse := by
    cases hr : l.reverse with
    | nil => rfl
    | cons a t =>
      have ha : l.getLast? = some a := by
        rw [← List.head?_reverse, hr]
        rfl
      rw [List.dropWhile_cons_of_neg (by simpa using h a ha)]
  rw [hrev, List.reverse_reverse]

theorem pyRstrip_mem (l : Str) (c : Char) (hc : c ∈ pyRstrip l) : c ∈ l := by
  unfold pyRstrip at hc
  rw [List.mem_reverse] at hc
  have := (List.dropWhile_sublist (l := l.reverse) pyIsSpace).subset hc
  rwa [List.mem_reverse] at this

theorem joinSep_nl_ne_nil (ls : List Str) (hne : ls ≠ [])
    (hlast : ∀ l, ls.getLast? = some l → l ≠ []) : joinSep ['\n'] ls ≠ [] := by
  cases ls with
  | nil => exact absurd rfl hne
  | cons l ls' =>
    cases ls' with
    | nil =>
      show l ≠ []
      exact hlast l rfl
    | cons l2 ls2 =>
      rw [joinSep_cons _ _ _ (by simp)]
      simp

theorem joinSep_len2_ne_nil (ls : List Str) (h2 : 2 ≤ ls.length) :
    joinSep ['\n'] ls ≠ [] := by
  cases ls with
  | nil => simp at h2
  | cons l ls' =>
    cases ls' with
    | nil => simp at h2
    | cons l2 ls2 =>
      rw [joinSep_cons _ _ _ (by simp)]
      simp

theorem joinSep_getLast_of_empty_last (ls : List Str) (h2 : 2 ≤ ls.length)
    (hl : ls.getLast? = some []) :
    (joinSep ['\n'] ls).getLast? = some '\n' := by
  induction ls with
  | nil => simp at h2
  | cons l ls' ih =>
    cases ls' with
    | nil => simp at h2
    | cons l2 ls2 =>
      rw [joinSep_cons _ _ _ (by simp)]
      rw [List.getLast?_append, List.getLast?_append]
      cases ls2 with
      | nil =>
        have hl2 : l2 = [] := by
          simpa using hl
        subst hl2
        rfl
      | cons l3 ls3 =>
        have hrec := ih (by simp) (by simpa using hl)
        rw [hrec]
        rfl

theorem pySplitlines_lines_clean (s : Str) :
    ∀ l ∈ pySplitlines s, ∀ c ∈ l, isLineBoundary c = false := by
  induction s with
  | nil => simp [pySplitlines]
  | cons c r ih =>
    by_cases hb : isLineBoundary c
    · by_cases hcr : c = '\r'
      · subst hcr
        cases r with
        | nil =>
          simp [pySplitlines, show isLineBoundary '\r' = true by decide]
        | cons c2 r2 =>
          by_cases h2 : c2 = '\n'
          · subst h2
            rw [show pySplitlines ('\r' :: '\n' :: r2) = [] :: pySplitlines r2
              from by simp [pySplitlines]]
            intro l hl
            rcases List.mem_cons.mp hl with h | h
            · subst h
              simp
            · have hr2 : ∀ l ∈ pySplitlines ('\n' :: r2), ∀ c ∈ l,
                  isLineBoundary c = false := ih
              rw [pySplitlines_nl] at hr2
              exact hr2 l (by simp [h])
          · rw [show pySplitlines ('\r' :: c2 :: r2) =
                [] :: pySplitlines (c2 :: r2) from by
              simp [pySplitlines, h2, show isLineBoundary '\r' = true by decide]]
            intro l hl
            rcases List.mem_cons.mp hl with h | h
            · subst h
              simp
            · exact ih l h
      · rw [pySplitlines_boundary c r hb hcr]
        intro l hl
        rcases List.mem_cons.mp hl with h | h
        · subst h
          simp
        · exact ih l h
    · rw [pySplitlines_cons c r (by simpa using hb)]
      cases hr : pySplitlines r with
      | nil =>
        intro l hl
        simp only [List.mem_singleton] at hl
        subst hl
        intro d hd
        simp only [List.mem_singleton] at hd
        subst hd
        simpa using hb
      | cons l1 ls1 =>
        intro l hl
        rcases List.mem_cons.mp hl with h | h
        · subst h
          intro d hd
          rcases List.mem_cons.mp hd with h' | h'
          · subst h'
            simpa using hb
          · exact ih l1 (by simp [hr]) d h'
        · exact ih l (by simp [hr, h])

theorem map_self_of {α : Type} (l : List α) (f : α → α)
    (h : ∀ a ∈ l, f a = a) : l.map f = l := by
  induction l with
  | nil => rfl
  | cons a t ih =>
    rw [List.map_cons, h a (by simp), ih (fun b hb => h b (by simp [hb]))]

theorem toRuns_line (l : Str) (h : ∀ c ∈ l, c ≠ '\n') :
    toRuns l = (l.map (fun c => (0, c)), 0) := by
  induction l with
  | nil => rfl
  | cons c r ih =>
    rw [toRuns_cons_other c r (h c (by simp)),
      ih (fun d hd => h d (by simp [hd]))]
    rfl

theorem toRuns_line_append (l s : Str) (h : ∀ c ∈ l, c ≠ '\n') :
    toRuns (l ++ s) =
      (l.map (fun c => (0, c)) ++ (toRuns s).1, (toRuns s).2) := by
  induction l with
  | nil => rfl
  | cons c r ih =>
    rw [List.cons_append, toRuns_cons_other c _ (h c (by simp)),
      ih (fun d hd => h d (by simp [hd]))]
    rfl

theorem chain'_map0 (l : Str) :
    List.Chain' (fun p q : Nat × Char => 0 < q.1 → pyIsSpace p.2 = false)
      (l.map (fun c => (0, c))) := by
  induction l with
  | nil => simp
  | cons c r ih =>
    cases r with
    | nil => simp
    | cons c2 r2 =>
      rw [List.map_cons, List.map_cons, List.chain'_cons]
      refine ⟨?_, ?_⟩
      · intro h
        simp at h
      · rw [List.map_cons] at ih
        exact ih

/-- The first normalization step produces run decompositions in
`GoodRuns` form: joining boundary-free, rstripped lines with a
nonempty last line. -/
theorem goodRuns_joinSep (ls : List Str)
    (hb : ∀ l ∈ ls, ∀ c ∈ l, isLineBoundary c = false)
    (hr : ∀ l ∈ ls, ∀ c, l.getLast? = some c → pyIsSpace c = false)
    (hlast : ∀ l, ls.getLast? = some l → l ≠ []) :
    ∃ ps, toRuns (joinSep ['\n'] ls) = (ps, 0) ∧ GoodRuns ps := by
  induction ls with
  | nil =>
    exact ⟨[], rfl, by simp [GoodRuns], by simp, by simp⟩
  | cons l ls' ih =>
    have hlnl : ∀ c ∈ l, c ≠ '\n' := by
      intro c hc he
      subst he
      exact absurd (hb l (by simp) '\n' hc) (by decide)
    cases ls' with
    | nil =>
      refine ⟨l.map (fun c => (0, c)), ?_, ?_, ?_, ?_⟩
      · show toRuns l = _
        exact toRuns_line l hlnl
      · intro p hp
        rw [List.mem_map] at hp
        obtain ⟨c, hc, rfl⟩ := hp
        exact hb l (by simp) c hc
      · exact chain'_map0 l
      · intro p hp
        rw [List.getLast?_map] at hp
        cases hl : l.getLast? with
        | none => rw [hl] at hp; simp at hp
        | some c =>
          rw [hl] at hp
          simp only [Option.map_some', Option.some.injEq] at hp
          subst hp
          exact hr l (by simp) c hl
    | cons l2 ls2 =>
      obtain ⟨ps', hps', hgood'⟩ := ih
        (fun q hq => hb q (by simp [hq]))
        (fun q hq => hr q (by simp [hq]))
        (fun q hq => hlast q (by rw [List.getLast?_cons_cons]; exact hq))
      have hJne : joinSep ['\n'] (l2 :: ls2) ≠ [] :=
        joinSep_nl_ne_nil (l2 :: ls2) (by simp)
          (fun q hq => hlast q (by rw [List.getLast?_cons_cons]; exact hq))
      have hps'ne : ps' ≠ [] := by
        intro he
        subst he
        have := fromRuns_toRuns (joinSep ['\n'] (l2 :: ls2))
        rw [hps'] at this
        exact hJne (by
          rw [← this]
          rfl)
      obtain ⟨p1, tl, rfl⟩ := List.exists_cons_of_ne_nil hps'ne
      cases p1 with
      | mk k1 c1 =>
        have hjoin : joinSep ['\n'] (l :: l2 :: ls2) =
            l ++ ('\n' :: joinSep ['\n'] (l2 :: ls2)) := by
          rw [joinSep_cons _ _ _ (by simp)]
          simp
        have htr : toRuns ('\n' :: joinSep ['\n'] (l2 :: ls2)) =
            ((k1 + 1, c1) :: tl, 0) := by
          rw [toRuns_cons_nl, hps']
        refine ⟨l.map (fun c => (0, c)) ++ (k1 + 1, c1) :: tl, ?_, ?_, ?_, ?_⟩
        · rw [hjoin, toRuns_line_append l _ hlnl, htr]
        · intro p hp
          rcases List.mem_append.mp hp with h | h
          · rw [List.mem_map] at h
            obtain ⟨c, hc, rfl⟩ := h
            exact hb l (by simp) c hc
          · rcases List.mem_cons.mp h with h' | h'
            · subst h'
              exact hgood'.1 (k1, c1) (by simp)
            · exact hgood'.1 p (by simp [h'])
        · rw [List.chain'_append]
          refine ⟨chain'_map0 l, ?_, ?_⟩
          · have hch := hgood'.2.1
            cases tl with
            | nil => simp
            | cons q tl2 =>
              rw [List.chain'_cons] at hch ⊢
              exact ⟨hch.1, hch.2⟩
          · intro x hx y hy
            simp only [List.head?_cons, Option.mem_def, Option.some.injEq] at hy
            subst hy
            rw [List.getLast?_map] at hx
            cases hl : l.getLast? with
            | none => rw [hl] at hx; simp at hx
            | some c =>
              rw [hl] at hx
              simp only [Option.mem_def, Option.map_some', Option.some.injEq] at hx
              subst hx
              intro _
              exact hr l (by simp) c hl
        · intro p hp
          rw [List.getLast?_append] at hp
          have hqs : (((k1 + 1, c1) :: tl : List (Nat × Char)).getLast?).isSome := by
            rw [List.getLast?_isSome]
            simp
          obtain ⟨q, hq⟩ := Option.isSome_iff_exists.mp hqs
          rw [hq] at hp
          simp only [Option.or, Option.some.injEq] at hp
          subst hp
          have hlastchar := hgood'.2.2
          cases tl with
          | nil =>
            simp only [List.getLast?_singleton, Option.some.injEq] at hq
            subst hq
            exact hlastchar (k1, c1) (by simp)
          | cons q2 tl2 =>
            rw [List.getLast?_cons_cons] at hq
            exact hlastchar q (by rw [List.getLast?_cons_cons]; exact hq)

theorem goodRuns_tail (p : Nat × Char) (rest : List (Nat × Char))
    (h : GoodRuns (p :: rest)) : GoodRuns rest := by
  refine ⟨fun q hq => h.1 q (by simp [hq]), h.2.1.tail, ?_⟩
  intro q hq
  apply h.2.2 q
  cases rest with
  | nil => simp at hq
  | cons r2 t2 =>
    rw [List.getLast?_cons_cons]
    exact hq

theorem goodRuns_decr_first (k : Nat) (c : Char) (rest : List (Nat × Char))
    (h : GoodRuns ((k + 1, c) :: rest)) : GoodRuns ((k, c) :: rest) := by
  refine ⟨?_, ?_, ?_⟩
  · intro q hq
    rcases List.mem_cons.mp hq with h' | h'
    · subst h'
      exact h.1 (k + 1, c) (by simp)
    · exact h.1 q (by simp [h'])
  · have hch := h.2.1
    cases rest with
    | nil => simp
    | cons q t =>
      rw [List.chain'_cons] at hch ⊢
      exact ⟨fun hpos => hch.1 hpos, hch.2⟩
  · intro q hq
    cases rest with
    | nil =>
      simp only [List.getLast?_singleton, Option.some.injEq] at hq
      subst hq
      exact h.2.2 (k + 1, c) (by simp)
    | cons r2 t2 =>
      rw [List.getLast?_cons_cons] at hq
      exact h.2.2 q (by rw [List.getLast?_cons_cons]; exact hq)

/-- On a `GoodRuns` decomposition the first normalization step is the
identity: the lines of the rebuilt text are already rstripped and
joining them back gives the text. -/
theorem strip_lines_runs :
    ∀ (ps : List (Nat × Char)), GoodRuns ps →
      (∀ l ∈ pySplitlines (fromRuns ps 0), pyRstrip l = l) ∧
      joinSep ['\n'] (pySplitlines (fromRuns ps 0)) = fromRuns ps 0 := by
  intro ps
  induction ps with
  | nil =>
    intro _
    refine ⟨?_, rfl⟩
    intro l hl
    simp [fromRuns_nil_eq, List.replicate, pySplitlines] at hl
  | cons p rest ih =>
    cases p with
    | mk k c =>
      induction k with
      | zero =>
        intro h
        have hcb : isLineBoundary c = false := h.1 (0, c) (by simp)
        have hs : fromRuns ((0, c) :: rest) 0 = c :: fromRuns rest 0 := rfl
        cases rest with
        | nil =>
          rw [hs, show fromRuns ([] : List (Nat × Char)) 0 = [] from rfl,
            pySplitlines_cons c [] hcb,
            show pySplitlines [] = [] from rfl]
          constructor
          · intro l hl
            simp only [List.mem_singleton] at hl
            subst hl
            apply pyRstrip_eq_of_getLast
            intro d hd
            simp only [List.getLast?_singleton, Option.some.injEq] at hd
            subst hd
            exact h.2.2 (0, c) (by simp)
          · rfl
        | cons p2 rest2 =>
          cases p2 with
          | mk k2 c2 =>
            have hF : fromRuns ((k2, c2) :: rest2) 0 ≠ [] := fromRuns_ne_nil _ _ _
            obtain ⟨c0, r0, hcr0⟩ := List.exists_cons_of_ne_nil hF
            have hlines : pySplitlines (fromRuns ((k2, c2) :: rest2) 0) ≠ [] := by
              rw [hcr0]
              exact pySplitlines_ne_nil c0 r0
            obtain ⟨l1, ls1, hls⟩ := List.exists_cons_of_ne_nil hlines
            obtain ⟨ih1, ih2⟩ := ih (goodRuns_tail _ _ h)
            have hl1ne_of_k2 : k2 = 0 → l1 ≠ [] := by
              intro hk2
              subst hk2
              have hcb2 : isLineBoundary c2 = false := h.1 (0, c2) (by simp)
              rw [show fromRuns ((0, c2) :: rest2) 0 = c2 :: fromRuns rest2 0
                from rfl, pySplitlines_cons c2 _ hcb2] at hls
              cases hrec : pySplitlines (fromRuns rest2 0) with
              | nil =>
                rw [hrec] at hls
                simp only [List.cons.injEq] at hls
                rw [← hls.1]
                simp
              | cons a b =>
                rw [hrec] at hls
                simp only [List.cons.injEq] at hls
                rw [← hls.1]
                simp
            rw [hs, pySplitlines_cons c _ hcb, hls]
            constructor
            · intro l hl
              rcases List.mem_cons.mp hl with h' | h'
              · subst h'
                apply pyRstrip_eq_of_getLast
                intro d hd
                cases hl1 : l1 with
                | nil =>
                  subst hl1
                  simp only [List.getLast?_singleton, Option.some.injEq] at hd
                  subst hd
                  have hk2pos : 0 < k2 := by
                    rcases Nat.eq_zero_or_pos k2 with h0 | hpos
                    · exact absurd rfl (hl1ne_of_k2 h0)
                    · exact hpos
                  have hch := h.2.1
                  rw [List.chain'_cons] at hch
                  exact hch.1 hk2pos
                | cons b l1' =>
                  subst hl1
                  rw [List.getLast?_cons_cons] at hd
                  have hfix : pyRstrip (b :: l1') = b :: l1' :=
                    ih1 (b :: l1') (by rw [hls]; simp)
                  apply pyRstrip_getLast_not_space (b :: l1') d
                  rw [hfix]
                  exact hd
              · exact ih1 l (by rw [hls]; simp [h'])
            · cases ls1 with
              | nil =>
                show joinSep ['\n'] [c :: l1] = c :: fromRuns ((k2, c2) :: rest2) 0
                rw [show joinSep ['\n'] [c :: l1] = c :: l1 from rfl]
                have hj := ih2
                rw [hls, show joinSep ['\n'] [l1] = l1 from rfl] at hj
                rw [hj]
              | cons lx lsx =>
                rw [joinSep_cons _ _ _ (by simp)]
                have hj := ih2
                rw [hls, joinSep_cons _ _ _ (by simp)] at hj
                show (c :: l1) ++ ['\n'] ++ joinSep ['\n'] (lx :: lsx) =
                  c :: fromRuns ((k2, c2) :: rest2) 0
                rw [← hj]
                simp
      | succ n ihk =>
        intro h
        have hgood' : GoodRuns ((n, c) :: rest) := goodRuns_decr_first n c rest h
        have hs : fromRuns ((n + 1, c) :: rest) 0 =
            '\n' :: fromRuns ((n, c) :: rest) 0 := by
          rw [fromRuns_cons_eq, fromRuns_cons_eq, List.replicate_succ]
          rfl
        have hF : fromRuns ((n, c) :: rest) 0 ≠ [] := fromRuns_ne_nil _ _ _
        obtain ⟨c0, r0, hcr0⟩ := List.exists_cons_of_ne_nil hF
        have hlines : pySplitlines (fromRuns ((n, c) :: rest) 0) ≠ [] := by
          rw [hcr0]
          exact pySplitlines_ne_nil c0 r0
        obtain ⟨ih1, ih2⟩ := ihk hgood'
        rw [hs, pySplitlines_nl]
        constructor
        · intro l hl
          rcases List.mem_cons.mp hl with h' | h'
          · subst h'
            rfl
          · exact ih1 l h'
        · obtain ⟨l1, ls1, hls⟩ := List.exists_cons_of_ne_nil hlines
          rw [hls, joinSep_cons _ _ _ (by simp), ← hls]
          show [] ++ ['\n'] ++ joinSep ['\n'] (pySplitlines _) = _
          rw [ih2]
          rfl

/-- The first normalization step is the identity on text rebuilt from a
`GoodRuns` decomposition. -/
theorem strip_lines_fromRuns (ps : List (Nat × Char)) (h : GoodRuns ps) :
    strip_lines (fromRuns ps 0) = fromRuns ps 0 := by
  obtain ⟨h1, h2⟩ := strip_lines_runs ps h
  unfold strip_lines
  rw [map_self_of _ _ h1, h2]

theorem braceRuns_cons_shape (p : Nat × Char) (t : List (Nat × Char)) :
    ∃ t2, braceRuns (p :: t) = p :: t2 := by
  cases t with
  | nil => exact ⟨[], rfl⟩
  | cons p2 rest =>
    cases p with
    | mk k1 c1 =>
      cases p2 with
      | mk k2 c2 =>
        simp only [braceRuns]
        split
        · exact ⟨_, rfl⟩
        · exact ⟨_, rfl⟩

theorem braceRuns_mem_bound :
    ∀ (ps : List (Nat × Char)) (p : Nat × Char), p ∈ braceRuns ps →
      ∃ q ∈ ps, p.1 ≤ q.1 ∧ p.2 = q.2 := by
  intro ps
  induction ps with
  | nil =>
    intro p hp
    simp [braceRuns] at hp
  | cons p1 tail ih =>
    intro p hp
    cases tail with
    | nil =>
      simp only [show braceRuns [p1] = [p1] from rfl, List.mem_singleton] at hp
      subst hp
      exact ⟨p, by simp, le_refl _, rfl⟩
    | cons p2 rest =>
      obtain ⟨k1, c1⟩ := p1
      obtain ⟨k2, c2⟩ := p2
      by_cases hcond : c1 = '\x7b' ∧ k2 = 2 ∧ c2 = ' '
      · obtain ⟨hb1, hb2, hb3⟩ := hcond
        subst hb1
        subst hb2
        subst hb3
        rw [show braceRuns ((k1, '\x7b') :: (2, ' ') :: rest) =
            (k1, '\x7b') :: (2 - 1, ' ') :: braceRuns rest by simp [braceRuns]]
          at hp
        rcases List.mem_cons.mp hp with h' | h'
        · subst h'
          exact ⟨(k1, '\x7b'), by simp, le_refl _, rfl⟩
        · rcases List.mem_cons.mp h' with h'' | h''
          · subst h''
            exact ⟨(2, ' '), by simp, by omega, rfl⟩
          · have hmem : p ∈ braceRuns ((2, ' ') :: rest) := by
              rw [braceRuns_cons_of_ne 2 ' ' rest (by decide)]
              simp [h'']
            obtain ⟨q, hq, hle, hc⟩ := ih p hmem
            exact ⟨q, by simp [hq], hle, hc⟩
      · rw [show braceRuns ((k1, c1) :: (k2, c2) :: rest) =
            (k1, c1) :: braceRuns ((k2, c2) :: rest) by
          simp only [braceRuns]
          rw [if_neg hcond]] at hp
        rcases List.mem_cons.mp hp with h' | h'
        · subst h'
          exact ⟨(k1, c1), by simp, le_refl _, rfl⟩
        · obtain ⟨q, hq, hle, hc⟩ := ih p h'
          exact ⟨q, by simp [hq], hle, hc⟩

theorem braceRuns_idem : ∀ (ps : List (Nat × Char)),
    braceRuns (braceRuns ps) = braceRuns ps := by
  intro ps
  induction ps with
  | nil => rfl
  | cons p1 tail ih =>
    cases tail with
    | nil => rfl
    | cons p2 rest =>
      obtain ⟨k1, c1⟩ := p1
      obtain ⟨k2, c2⟩ := p2
      by_cases hcond : c1 = '\x7b' ∧ k2 = 2 ∧ c2 = ' '
      · obtain ⟨hb1, hb2, hb3⟩ := hcond
        subst hb1
        subst hb2
        subst hb3
        rw [show braceRuns ((k1, '\x7b') :: (2, ' ') :: rest) =
            (k1, '\x7b') :: (1, ' ') :: braceRuns rest by simp [braceRuns]]
        rw [show braceRuns ((k1, '\x7b') :: (1, ' ') :: braceRuns rest) =
            (k1, '\x7b') :: braceRuns ((1, ' ') :: braceRuns rest) by
          simp only [braceRuns]
          rw [if_neg (by
            rintro ⟨_, h1, _⟩
            omega)]]
        rw [braceRuns_cons_of_ne 1 ' ' _ (by decide)]
        have hextract : braceRuns (braceRuns rest) = braceRuns rest := by
          have hih := ih
          rw [braceRuns_cons_of_ne 2 ' ' rest (by decide),
            braceRuns_cons_of_ne 2 ' ' (braceRuns rest) (by decide)] at hih
          exact (List.cons.injEq _ _ _ _).mp hih |>.2
        rw [hextract]
      · have hne : braceRuns ((k1, c1) :: (k2, c2) :: rest) =
            (k1, c1) :: braceRuns ((k2, c2) :: rest) := by
          simp only [braceRuns]
          rw [if_neg hcond]
        rw [hne]
        obtain ⟨X, hX⟩ := braceRuns_cons_shape (k2, c2) rest
        rw [hX]
        rw [show braceRuns ((k1, c1) :: (k2, c2) :: X) =
            (k1, c1) :: braceRuns ((k2, c2) :: X) by
          simp only [braceRuns]
          rw [if_neg hcond]]
        rw [← hX, ih]

theorem braceRuns_goodRuns : ∀ (ps : List (Nat × Char)),
    GoodRuns ps → GoodRuns (braceRuns ps) := by
  intro ps
  induction ps with
  | nil =>
    intro h
    exact h
  | cons p1 tail ih =>
    intro h
    cases tail with
    | nil => exact h
    | cons p2 rest =>
      obtain ⟨k1, c1⟩ := p1
      obtain ⟨k2, c2⟩ := p2
      by_cases hcond : c1 = '\x7b' ∧ k2 = 2 ∧ c2 = ' '
      · obtain ⟨hb1, hb2, hb3⟩ := hcond
        subst hb1
        subst hb2
        subst hb3
        cases rest with
        | nil =>
          exact absurd (h.2.2 (2, ' ') (by simp)) (by decide)
        | cons p3 rest3 =>
          have htail := ih (goodRuns_tail _ _ h)
          rw [braceRuns_cons_of_ne 2 ' ' _ (by decide)] at htail
          rw [show braceRuns ((k1, '\x7b') :: (2, ' ') :: p3 :: rest3) =
              (k1, '\x7b') :: (1, ' ') :: braceRuns (p3 :: rest3) by
            simp [braceRuns]]
          obtain ⟨X, hX⟩ := braceRuns_cons_shape p3 rest3
          refine ⟨?_, ?_, ?_⟩
          · intro q hq
            rcases List.mem_cons.mp hq with h' | h'
            · subst h'
              exact (show isLineBoundary '\x7b' = false by decide)
            · rcases List.mem_cons.mp h' with h'' | h''
              · subst h''
                exact (show isLineBoundary ' ' = false by decide)
              · exact htail.1 q (by simp [h''])
          · rw [List.chain'_cons]
            refine ⟨fun _ => (show pyIsSpace '\x7b' = false by decide), ?_⟩
            rw [List.chain'_cons']
            refine ⟨?_, htail.2.1.tail⟩
            intro y hy
            rw [hX] at hy
            simp only [List.head?_cons, Option.mem_def, Option.some.injEq] at hy
            subst hy
            intro hpos
            have hch := h.2.1
            rw [List.chain'_cons, List.chain'_cons] at hch
            exact hch.2.1 hpos
          · intro q hq
            rw [hX, List.getLast?_cons_cons, List.getLast?_cons_cons] at hq
            exact htail.2.2 q (by
              rw [hX, List.getLast?_cons_cons]
              exact hq)
      · have htail := ih (goodRuns_tail _ _ h)
        rw [show braceRuns ((k1, c1) :: (k2, c2) :: rest) =
            (k1, c1) :: braceRuns ((k2, c2) :: rest) by
          simp only [braceRuns]
          rw [if_neg hcond]]
        obtain ⟨X, hX⟩ := braceRuns_cons_shape (k2, c2) rest
        refine ⟨?_, ?_, ?_⟩
        · intro q hq
          rcases List.mem_cons.mp hq with h' | h'
          · subst h'
            exact h.1 (k1, c1) (by simp)
          · exact htail.1 q h'
        · rw [List.chain'_cons']
          refine ⟨?_, htail.2.1⟩
          intro y hy
          rw [hX] at hy
          simp only [List.head?_cons, Option.mem_def, Option.some.injEq] at hy
          subst hy
          have hch := h.2.1
          rw [List.chain'_cons] at hch
          exact hch.1
        · intro q hq
          rw [hX, List.getLast?_cons_cons] at hq
          exact htail.2.2 q (by
            rw [hX]
            exact hq)

theorem goodRuns_map_runMap (m r : Nat) (hm : 0 < m) (hr : 0 < r)
    (ps : List (Nat × Char)) (h : GoodRuns ps) :
    GoodRuns (ps.map fun p => (runMap m r p.1, p.2)) := by
  refine ⟨?_, ?_, ?_⟩
  · intro q hq
    rw [List.mem_map] at hq
    obtain ⟨p, hp, rfl⟩ := hq
    exact h.1 p hp
  · rw [List.chain'_map]
    refine List.Chain'.imp ?_ h.2.1
    intro a b hab hpos
    exact hab ((runMap_pos_iff m r b.1 hm hr).mp hpos)
  · intro q hq
    rw [List.getLast?_map] at hq
    cases hl : ps.getLast? with
    | none =>
      rw [hl] at hq
      simp at hq
    | some p =>
      rw [hl] at hq
      simp only [Option.map_some', Option.some.injEq] at hq
      subst hq
      exact h.2.2 p hl

theorem map_runMap_id (m r : Nat) (ps : List (Nat × Char))
    (h : ∀ p ∈ ps, p.1 < m) :
    (ps.map fun p => (runMap m r p.1, p.2)) = ps := by
  apply map_self_of
  intro p hp
  cases p with
  | mk k c =>
    simp [runMap_small m r k (h (k, c) hp)]

theorem f43_le_two (k : Nat) (h : k ≤ 5) :
    runMap 3 2 (runMap 4 2 k) ≤ 2 := by
  interval_cases k <;> decide

theorem normalize_nil : normalize [] = [] := by
  show braceFix (collapse3 (collapse4 (strip_lines []))) = []
  rw [show strip_lines [] = [] from rfl]
  unfold collapse4 collapse3 braceFix
  rw [pyReplace_nil, pyReplace_nil, pyReplace_nil]

/-- The two collapse substitutions followed by the brace substitution,
computed entirely in the run view. -/
theorem collapse_brace_runs (ps : List (Nat × Char))
    (hchars : ∀ p ∈ ps, p.2 ≠ '\n') :
    braceFix (collapse3 (collapse4 (fromRuns ps 0))) =
      fromRuns (braceRuns ((ps.map fun p => (runMap 4 2 p.1, p.2)).map
        fun p => (runMap 3 2 p.1, p.2))) 0 := by
  have hchars1 : ∀ p ∈ ps.map (fun p => (runMap 4 2 p.1, p.2)), p.2 ≠ '\n' := by
    intro p hp
    obtain ⟨q, hq, rfl⟩ := List.mem_map.mp hp
    exact hchars q hq
  have hchars2 : ∀ p ∈ (ps.map fun p => (runMap 4 2 p.1, p.2)).map
      (fun p => (runMap 3 2 p.1, p.2)), p.2 ≠ '\n' := by
    intro p hp
    obtain ⟨q, hq, rfl⟩ := List.mem_map.mp hp
    exact hchars1 q hq
  rw [show collapse4 (fromRuns ps 0) =
      fromRuns (ps.map fun p => (runMap 4 2 p.1, p.2)) 0 by
    unfold collapse4
    rw [show (['\n', '\n', '\n', '\n'] : Str) = List.replicate 4 '\n' from rfl,
      show (['\n', '\n'] : Str) = List.replicate 2 '\n' from rfl,
      replace_nl_fromRuns 4 2 (by omega) ps 0 hchars,
      runMap_small 4 2 0 (by omega)]]
  rw [show collapse3 (fromRuns (ps.map fun p => (runMap 4 2 p.1, p.2)) 0) =
      fromRuns ((ps.map fun p => (runMap 4 2 p.1, p.2)).map
        fun p => (runMap 3 2 p.1, p.2)) 0 by
    unfold collapse3
    rw [show (['\n', '\n', '\n'] : Str) = List.replicate 3 '\n' from rfl,
      show (['\n', '\n'] : Str) = List.replicate 2 '\n' from rfl,
      replace_nl_fromRuns 3 2 (by omega) _ 0 hchars1,
      runMap_small 3 2 0 (by omega)]]
  exact brace_fromRuns _ hchars2 0

theorem normalize_fromRuns (qs : List (Nat × Char)) (hgood : GoodRuns qs)
    (hchars : ∀ p ∈ qs, p.2 ≠ '\n') :
    normalize (fromRuns qs 0) =
      fromRuns (braceRuns ((qs.map fun p => (runMap 4 2 p.1, p.2)).map
        fun p => (runMap 3 2 p.1, p.2))) 0 := by
  show braceFix (collapse3 (collapse4 (strip_lines (fromRuns qs 0)))) = _
  rw [strip_lines_fromRuns qs hgood]
  exact collapse_brace_runs qs hchars

/- ================================================================= -/
/- Claim theorems.                                                   -/
/- ================================================================= -/

/-- Claim C1, counterexample: a field whose type is an Array of a
Compound element (`a.X`) contributes nothing to the dependency set —
`fields_includes` is empty and in particular does not contain the
element compound's reference, although the array's `value_type`
category is Compound. -/
theorem c1_counterexample :
    (SchemaType.array (.compound exFullNameAX) .staticMode 3).value_type =
        some (.compound exFullNameAX) ∧
    (SchemaType.compound exFullNameAX).isCompound = true ∧
    type_output_filename '/' (.compound exFullNameAX) ∉
      fields_includes '/' [⟨exNameFA, .array (.compound exFullNameAX) .staticMode 3⟩] ∧
    fields_includes '/' [⟨exNameFA, .array (.compound exFullNameAX) .staticMode 3⟩] = ∅ := by
  refine ⟨rfl, rfl, ?_, ?_⟩ <;> decide

/-- Claim C1 (amended): the dependency collector inspects only a
field's own type category — a field contributes its compound's
reference exactly when the field's own type is Compound, and a field
of Array type (whatever its `value_type`, in particular an Array of
Compound elements) contributes nothing, because an Array is never of
Compound category. -/
theorem c1_collector_own_category_only (sep : Char) (fields : List Attribute) (p : Str) :
    (p ∈ fields_includes sep fields ↔
      ∃ a ∈ fields, a.type.isCompound = true ∧ type_output_filename sep a.type = p) ∧
    (∀ (v : SchemaType) (mode : ArrayMode) (n : Nat),
      (SchemaType.array v mode n).isCompound = false) :=
  ⟨mem_fields_includes sep fields p, fun _ _ _ => rfl⟩

/-- Claim C3, counterexample: evaluating a float constant whose literal
is `"INF"` does not fail — Python `float` accepts the word forms
case-insensitively, so `inject_constant_info` succeeds and keeps the
literal verbatim. -/
theorem c3_counterexample :
    inject_constant_info ⟨exConstName, .primitive .float 32 .saturated, litINF, 0⟩ =
      .ok ⟨false, litINF⟩ := by
  decide

/-- Claim C3 (amended): the special-value table is matched
case-sensitively and holds exactly the keys `inf`, `+inf`, `-inf`,
`nan`; a float literal missing from the table is validated by Python
`float`, which accepts the word forms case-insensitively — so the
constant evaluates verbatim when the literal is a valid float literal
and fails otherwise; in particular `"INF"` misses the table but is a
valid float literal, so its evaluation succeeds (it is not mapped to
the infinity expression). -/
theorem c3_float_literal_evaluation (c : Constant) (b : Nat) (cm : CastMode)
    (ht : c.type = .primitive .float b cm)
    (hs : special_value c.name c.string_value = none) :
    (pyFloatValid c.string_value = true →
      inject_constant_info c = .ok ⟨false, c.string_value⟩) ∧
    (pyFloatValid c.string_value = false →
      inject_constant_info c = .error (sFloatError ++ c.string_value)) ∧
    (∀ name lit : Str, (special_value name lit).isSome = true ↔
      (lit = litInf ∨ lit = litPlusInf ∨ lit = litMinusInf ∨ lit = litNaN)) ∧
    pyFloatValid litINF = true := by
  have hf : c.type.kindIsFloat = true := by rw [ht]; rfl
  refine ⟨?_, ?_, ?_, by decide⟩
  · intro hv
    simp [inject_constant_info, hf, hs, hv]
  · intro hv
    simp [inject_constant_info, hf, hs, hv]
  · intro name lit
    unfold special_value
    split
    · simp_all
    · split
      · simp_all
      · split
        · simp_all
        · split
          · simp_all
          · simp_all

/-- Claim C3, witness: a plain numeric literal (`"2.5"`, not in the
special-value table) evaluates successfully and verbatim. -/
theorem c3_float_literal_evaluation_witness :
    inject_constant_info ⟨exConstName, .primitive .float 16 .truncated, lit25, 0⟩ =
      .ok ⟨false, lit25⟩ :=
  (c3_float_literal_evaluation
    ⟨exConstName, .primitive .float 16 .truncated, lit25, 0⟩ 16 .truncated rfl
    (by decide)).1 (by decide)

/-- Claim C4: for an integer or boolean constant (any non-float
primitive kind), evaluation always succeeds and the derived
`cpp_use_enum` flag is true exactly when the value is nonnegative and
the type's `bitlen` is at most 31 (`MAX_BITLEN_FOR_ENUM`). -/
theorem c4_use_enum (c : Constant) (k : PrimitiveKind) (b : Nat) (cm : CastMode)
    (hk : k ≠ .float) (ht : c.type = .primitive k b cm) :
    ∃ r, inject_constant_info c = .ok r ∧
      (r.cpp_use_enum = true ↔ (0 ≤ c.value ∧ b ≤ 31)) := by
  have hf : c.type.kindIsFloat = false := by
    rw [ht]
    cases k with
    | float => exact absurd rfl hk
    | boolean => rfl
    | unsignedInt => rfl
    | signedInt => rfl
  have heq : inject_constant_info c =
      .ok ⟨decide (0 ≤ c.value) && decide (c.type.bitlen ≤ MAX_BITLEN_FOR_ENUM),
        c.string_value⟩ := by
    simp [inject_constant_info, hf]
  refine ⟨_, heq, ?_⟩
  simp [ht, MAX_BITLEN_FOR_ENUM, SchemaType.bitlen]

/-- Claim C4, witness: bitlen 31 with value 0 (the borderline case the
claim singles out) is enum-eligible. -/
theorem c4_use_enum_witness :
    ∃ r, inject_constant_info
        ⟨exConstName, .primitive .unsignedInt 31 .saturated, litZero, 0⟩ = .ok r ∧
      (r.cpp_use_enum = true ↔ (0 ≤ (0 : Int) ∧ 31 ≤ 31)) :=
  c4_use_enum ⟨exConstName, .primitive .unsignedInt 31 .saturated, litZero, 0⟩
    .unsignedInt 31 .saturated (by decide) rfl

/-- Claim C5: float special values — the literals `inf` and `+inf`
both evaluate to the same positive-infinity expression, `-inf` to its
negation (`'-'` prepended), `nan` to the quiet-NaN expression, and
every float constant that evaluates successfully (special-valued or
not) has `cpp_use_enum = false`. -/
theorem c5_float_specials (name : Str) (b : Nat) (cm : CastMode) (v : Int) :
    inject_constant_info ⟨name, .primitive .float b cm, litInf, v⟩ =
      .ok ⟨false, numeric_limits_inf name⟩ ∧
    inject_constant_info ⟨name, .primitive .float b cm, litPlusInf, v⟩ =
      .ok ⟨false, numeric_limits_inf name⟩ ∧
    inject_constant_info ⟨name, .primitive .float b cm, litMinusInf, v⟩ =
      .ok ⟨false, '-' :: numeric_limits_inf name⟩ ∧
    inject_constant_info ⟨name, .primitive .float b cm, litNaN, v⟩ =
      .ok ⟨false, numeric_limits name ++ sQuietNaNCall⟩ ∧
    (∀ (lit : Str) (r : EvaluatedConstant),
      inject_constant_info ⟨name, .primitive .float b cm, lit, v⟩ = .ok r →
        r.cpp_use_enum = false) := by
  refine ⟨rfl, rfl, rfl, rfl, ?_⟩
  intro lit r h
  unfold inject_constant_info at h
  simp only [show (SchemaType.primitive .float b cm).kindIsFloat = true from rfl,
    if_true] at h
  split at h
  · cases h
    rfl
  · split at h
    · cases h
      rfl
    · cases h

/-- Claim C5, witness: the general `cpp_use_enum = false` clause at the
concrete successful literal `"0"`. -/
theorem c5_float_specials_witness :
    inject_constant_info ⟨exConstName, .primitive .float 32 .saturated, litInf, 0⟩ =
      .ok ⟨false, numeric_limits_inf exConstName⟩ ∧
    (⟨false, litZero⟩ : EvaluatedConstant).cpp_use_enum = false :=
  ⟨(c5_float_specials exConstName 32 .saturated 0).1,
    (c5_float_specials exConstName 32 .saturated 0).2.2.2.2 litZero
      ⟨false, litZero⟩ (by decide)⟩

/-- Claim C6: a schema type node of unrecognized category makes
`type_to_cpp_type` fail with the `Unknown type category` error, while a
type built entirely from the three recognized categories (the §3 input
contract) is always mapped to a descriptor without failing. -/
theorem c6_category_dispatch :
    (∀ cat : Str, type_to_cpp_type (.unknownCategory cat) =
      .error (sUnknownCategory ++ cat)) ∧
    (∀ t : SchemaType, t.wellFormed = true → ∃ s, type_to_cpp_type t = .ok s) := by
  refine ⟨fun _ => rfl, ?_⟩
  intro t
  induction t with
  | primitive k bl cm =>
    intro _
    cases k <;> exact ⟨_, rfl⟩
  | array v mode n ih =>
    intro h
    obtain ⟨s, hs⟩ := ih (by simpa [SchemaType.wellFormed] using h)
    refine ⟨sArrayL ++ s ++ sCommaSpace ++ arrayModeStr mode ++ sCommaSpace ++
      natStr n ++ sGt, ?_⟩
    show (match type_to_cpp_type v with
      | Except.error e => Except.error e
      | Except.ok v' => Except.ok (sArrayL ++ v' ++ sCommaSpace ++
          arrayModeStr mode ++ sCommaSpace ++ natStr n ++ sGt)) = _
    rw [hs]
  | compound fn =>
    intro _
    exact ⟨_, rfl⟩
  | unknownCategory cat =>
    intro h
    exact absurd h (by simp [SchemaType.wellFormed])

/-- Claim C6, witness: the concrete unrecognized category `"vector"`
fails, and a concrete well-formed array-of-compound succeeds. -/
theorem c6_category_dispatch_witness :
    type_to_cpp_type (.unknownCategory exBadCategory) =
      .error (sUnknownCategory ++ exBadCategory) ∧
    ∃ s, type_to_cpp_type (.array (.compound exFullNameAX) .dynamicMode 5) = .ok s :=
  ⟨c6_category_dispatch.1 exBadCategory,
    c6_category_dispatch.2 (.array (.compound exFullNameAX) .dynamicMode 5)
      (by decide)⟩

/-- Claim C7: the dependency collector has set semantics — its result
is invariant under permutation of the field list, membership is exactly
"some field of compound type maps to this reference" (so each
referenced compound appears once, however many fields reference it),
and the concrete list [FieldA: Compound ns.X, FieldB: Compound ns.X,
FieldC: Primitive] collects exactly the singleton of ns.X's
reference. -/
theorem c7_set_semantics (sep : Char) (l1 l2 : List Attribute) (h : l1.Perm l2) :
    fields_includes sep l1 = fields_includes sep l2 ∧
    (∀ p : Str, p ∈ fields_includes sep l1 ↔
      ∃ a ∈ l1, a.type.isCompound = true ∧ type_output_filename sep a.type = p) ∧
    fields_includes '/'
        [⟨exNameFA, .compound exFullNameNsX⟩, ⟨exNameFB, .compound exFullNameNsX⟩,
          ⟨exNameFC, .primitive .unsignedInt 8 .saturated⟩] =
      {type_output_filename '/' (.compound exFullNameNsX)} := by
  refine ⟨?_, fun p => mem_fields_includes sep l1 p, by decide⟩
  apply Finset.ext
  intro p
  unfold fields_includes
  rw [List.mem_toFinset, List.mem_toFinset]
  exact ((h.filter _).map _).mem_iff

/-- Claim C7, witness: permuting a concrete two-field list leaves the
collected set unchanged. -/
theorem c7_set_semantics_witness :
    fields_includes '/'
        [⟨exNameFA, .compound exFullNameNsX⟩,
          ⟨exNameFC, .primitive .unsignedInt 8 .saturated⟩] =
      fields_includes '/'
        [⟨exNameFC, .primitive .unsignedInt 8 .saturated⟩,
          ⟨exNameFA, .compound exFullNameNsX⟩] :=
  (c7_set_semantics '/'
    [⟨exNameFA, .compound exFullNameNsX⟩,
      ⟨exNameFC, .primitive .unsignedInt 8 .saturated⟩]
    [⟨exNameFC, .primitive .unsignedInt 8 .saturated⟩,
      ⟨exNameFA, .compound exFullNameNsX⟩]
    (List.Perm.swap _ _ _)).1

/-- Claim C8: an Array maps to the array descriptor parameterized by
exactly the recursively mapped element descriptor, the array's mode
string and its `max_size` rendered verbatim; a Compound maps to the
fully qualified reference: the leading scope separator followed by the
`full_name` components joined with the scope separator `::`. -/
theorem c8_array_compound_mapping (v : SchemaType) (mode : ArrayMode) (n : Nat)
    (s : Str) (h : type_to_cpp_type v = .ok s) :
    type_to_cpp_type (.array v mode n) =
      .ok (sArrayL ++ s ++ sCommaSpace ++ arrayModeStr mode ++ sCommaSpace ++
        natStr n ++ sGt) ∧
    (∀ fullName : Str, type_to_cpp_type (.compound fullName) =
      .ok (sColons ++ joinSep sColons (pySplitChar '.' fullName))) := by
  constructor
  · simp [type_to_cpp_type, h]
  · intro fn
    show Except.ok (sColons ++ pyReplace sDot sColons fn) = _
    rw [show sDot = ['.'] from rfl, pyReplace_single_eq_joinSep]

/-- Claim C8, witness: at the concrete element type `bool` (mapped
descriptor `exBoolSpec`) and the compound `a.X`. -/
theorem c8_array_compound_mapping_witness :
    type_to_cpp_type (.array (.primitive .boolean 1 .saturated) .dynamicMode 7) =
      .ok (sArrayL ++ exBoolSpec ++ sCommaSpace ++ arrayModeStr .dynamicMode ++
        sCommaSpace ++ natStr 7 ++ sGt) ∧
    type_to_cpp_type (.compound exFullNameAX) =
      .ok (sColons ++ joinSep sColons (pySplitChar '.' exFullNameAX)) :=
  ⟨(c8_array_compound_mapping (.primitive .boolean 1 .saturated) .dynamicMode 7
      exBoolSpec rfl).1,
    (c8_array_compound_mapping (.primitive .boolean 1 .saturated) .dynamicMode 7
      exBoolSpec rfl).2 exFullNameAX⟩

/-- Claim C9: the writer's output path for a compound type is the
absolutized destination root, the platform separator, then `full_name`
with every `.` replaced by the separator (equivalently: the dotted
components joined by the separator) and the fixed `.hpp` extension; in
particular `ns.Foo` under `/out` goes to `/out/ns/Foo.hpp`. -/
theorem c9_output_path (sep : Char) (dest_abs : Str) (fn : Str)
    (h1 : dest_abs ≠ []) (h2 : dest_abs.getLast? ≠ some sep)
    (h3 : (type_output_filename sep (.compound fn)).head? ≠ some sep) :
    output_file_path sep dest_abs (.compound fn) =
      dest_abs ++ sep ::
        (joinSep [sep] (pySplitChar '.' fn) ++ '.' :: CPP_HEADER_EXTENSION) ∧
    output_file_path '/' exOutDir (.compound exFullNameNsFoo) = exOutPath := by
  constructor
  · unfold output_file_path os_path_join
    rw [if_neg h3, if_neg (by
      rintro (he | hl)
      · exact h1 he
      · exact h2 hl)]
    unfold type_output_filename
    rw [show sDot = ['.'] from rfl, pyReplace_single_eq_joinSep]
    simp [SchemaType.full_name]
  · decide

/-- Claim C9, witness: the general clause at the concrete separator
`/`, root `/out` and name `ns.Foo`. -/
theorem c9_output_path_witness :
    output_file_path '/' exOutDir (.compound exFullNameNsFoo) =
      exOutDir ++ '/' ::
        (joinSep ['/'] (pySplitChar '.' exFullNameNsFoo) ++
          '.' :: CPP_HEADER_EXTENSION) :=
  (c9_output_path '/' exOutDir exFullNameNsFoo (by decide) (by decide)
    (by decide)).1

/-- Claim C10: every element of a type's collected dependency set is
produced by the very `type_output_filename` used to place output
files — for a compound-typed field, the include string is the
referenced type's output path relative to the destination root, so
joining the destination root with the include string yields exactly
the path the writer uses for that type's file. -/
theorem c10_includes_match_layout (sep : Char) (dest_abs : Str)
    (fields : List Attribute)
    (h1 : dest_abs ≠ []) (h2 : dest_abs.getLast? ≠ some sep) :
    ∀ p ∈ fields_includes sep fields, p.head? ≠ some sep →
      ∃ a ∈ fields, a.type.isCompound = true ∧
        type_output_filename sep a.type = p ∧
        output_file_path sep dest_abs a.type = dest_abs ++ sep :: p := by
  intro p hp hhead
  obtain ⟨a, ha, hc, hfile⟩ := (mem_fields_includes sep fields p).mp hp
  refine ⟨a, ha, hc, hfile, ?_⟩
  unfold output_file_path os_path_join
  rw [hfile]
  rw [if_neg hhead, if_neg (by
    rintro (he | hl)
    · exact h1 he
    · exact h2 hl)]

/-- Claim C10, witness: a concrete compound field `ns.Foo` — its
include string equals its relative output filename and the joined path
is the writer's absolute output path. -/
theorem c10_includes_match_layout_witness :
    ∃ a ∈ [(⟨exNameFA, .compound exFullNameNsFoo⟩ : Attribute)],
      a.type.isCompound = true ∧
      type_output_filename '/' a.type =
        type_output_filename '/' (.compound exFullNameNsFoo) ∧
      output_file_path '/' exOutDir a.type =
        exOutDir ++ '/' :: type_output_filename '/' (.compound exFullNameNsFoo) :=
  c10_includes_match_layout '/' exOutDir
    [⟨exNameFA, .compound exFullNameNsFoo⟩] (by decide) (by decide)
    (type_output_filename '/' (.compound exFullNameNsFoo))
    (by
      rw [mem_fields_includes]
      exact ⟨⟨exNameFA, .compound exFullNameNsFoo⟩, by simp, rfl, rfl⟩)
    (by decide)

/-- Claim C2, counterexample: the collapse of blank-line runs is two
single substitution passes, not a fixed point — on `"a"` + 6 newlines +
`"b"` the normalized output still contains a run of 3 consecutive
newlines and normalizing again changes it; and a text whose stripped
form ends in a newline (here two bare newlines) also re-normalizes to
something shorter.  So `normalize` is not idempotent and its output can
contain a 3-newline run. -/
theorem c2_counterexample :
    normalize (normalize exSixNl) ≠ normalize exSixNl ∧
    (List.replicate 3 '\n') <:+: normalize exSixNl ∧
    normalize (normalize exTwoNl) ≠ normalize exTwoNl := by
  refine ⟨?_, ?_, ?_⟩ <;> decide

/-- Claim C2 (amended): the whitespace normalization of lines 163-166
is idempotent, and its output contains no run of 3 consecutive
newlines, for every text whose line-stripped form (step 1) does not end
in a newline and contains no run of 6 or more consecutive newlines.
(Both hypotheses are necessary: the counterexample shows a 6-newline
run normalizes to a 3-newline run that collapses further on a second
pass, and a stripped form ending in a newline loses that newline on
the next pass's `splitlines`/`join`.) -/
theorem c2_normalize_idempotent (x : Str)
    (h6 : ¬ (List.replicate 6 '\n' <:+: strip_lines x))
    (hend : (strip_lines x).getLast? ≠ some '\n') :
    normalize (normalize x) = normalize x ∧
    ¬ (List.replicate 3 '\n' <:+: normalize x) := by
  by_cases hnil : strip_lines x = []
  · have hnx : normalize x = [] := by
      show braceFix (collapse3 (collapse4 (strip_lines x))) = []
      unfold collapse4 collapse3 braceFix
      rw [hnil, pyReplace_nil, pyReplace_nil, pyReplace_nil]
    refine ⟨?_, ?_⟩
    · rw [hnx]
      exact normalize_nil
    · rw [hnx]
      intro hc
      have := hc.sublist.length_le
      simp at this
  · have hb : ∀ l ∈ (pySplitlines x).map pyRstrip, ∀ c ∈ l,
        isLineBoundary c = false := by
      intro l hl c hc
      obtain ⟨l0, hl0, rfl⟩ := List.mem_map.mp hl
      exact pySplitlines_lines_clean x l0 hl0 c (pyRstrip_mem l0 c hc)
    have hrs : ∀ l ∈ (pySplitlines x).map pyRstrip, ∀ c,
        l.getLast? = some c → pyIsSpace c = false := by
      intro l hl c hc
      obtain ⟨l0, hl0, rfl⟩ := List.mem_map.mp hl
      exact pyRstrip_getLast_not_space l0 c hc
    have hlast : ∀ l, ((pySplitlines x).map pyRstrip).getLast? = some l →
        l ≠ [] := by
      intro l hl he
      subst he
      cases hLs : (pySplitlines x).map pyRstrip with
      | nil =>
        rw [hLs] at hl
        simp at hl
      | cons a t =>
        cases t with
        | nil =>
          rw [hLs] at hl
          simp only [List.getLast?_singleton, Option.some.injEq] at hl
          apply hnil
          show joinSep ['\n'] ((pySplitlines x).map pyRstrip) = []
          rw [hLs, ← hl]
          rfl
        | cons b t2 =>
          have h2 : 2 ≤ ((pySplitlines x).map pyRstrip).length := by
            rw [hLs]
            simp
          have hfin := joinSep_getLast_of_empty_last _ h2 hl
          exact hend hfin
    obtain ⟨ps, hps, hgood⟩ := goodRuns_joinSep _ hb hrs hlast
    have hps' : toRuns (strip_lines x) = (ps, 0) := hps
    have hfr : fromRuns ps 0 = strip_lines x := by
      have h0 := fromRuns_toRuns (strip_lines x)
      rw [hps'] at h0
      exact h0
    have hchars : ∀ p ∈ ps, p.2 ≠ '\n' := by
      intro p hp he
      have hbd := hgood.1 p hp
      rw [he] at hbd
      exact absurd hbd (by decide)
    have hruns5 : ∀ p ∈ ps, p.1 ≤ 5 := by
      intro p hp
      by_contra hgt
      apply h6
      rw [← hfr, infix_replicate_nl_fromRuns 6 ps 0 (by omega) hchars]
      exact Or.inl ⟨p, hp, by omega⟩
    have hnx : normalize x =
        fromRuns (braceRuns ((ps.map fun p => (runMap 4 2 p.1, p.2)).map
          fun p => (runMap 3 2 p.1, p.2))) 0 := by
      show braceFix (collapse3 (collapse4 (strip_lines x))) = _
      rw [← hfr]
      exact collapse_brace_runs ps hchars
    have hcharsF : ∀ p ∈ braceRuns ((ps.map fun p => (runMap 4 2 p.1, p.2)).map
        fun p => (runMap 3 2 p.1, p.2)), p.2 ≠ '\n' := by
      intro p hp
      obtain ⟨q, hq, _, hc⟩ := braceRuns_mem_bound _ p hp
      rw [hc]
      obtain ⟨q1, hq1, rfl⟩ := List.mem_map.mp hq
      obtain ⟨q0, hq0, rfl⟩ := List.mem_map.mp hq1
      exact hchars q0 hq0
    have hrunsF : ∀ p ∈ braceRuns ((ps.map fun p => (runMap 4 2 p.1, p.2)).map
        fun p => (runMap 3 2 p.1, p.2)), p.1 ≤ 2 := by
      intro p hp
      obtain ⟨q, hq, hle, _⟩ := braceRuns_mem_bound _ p hp
      obtain ⟨q1, hq1, rfl⟩ := List.mem_map.mp hq
      obtain ⟨q0, hq0, rfl⟩ := List.mem_map.mp hq1
      have hle' : p.1 ≤ runMap 3 2 (runMap 4 2 q0.1) := hle
      have hb5 := f43_le_two q0.1 (hruns5 q0 hq0)
      omega
    have hgoodF : GoodRuns (braceRuns ((ps.map fun p => (runMap 4 2 p.1, p.2)).map
        fun p => (runMap 3 2 p.1, p.2))) :=
      braceRuns_goodRuns _ (goodRuns_map_runMap 3 2 (by omega) (by omega) _
        (goodRuns_map_runMap 4 2 (by omega) (by omega) ps hgood))
    refine ⟨?_, ?_⟩
    · rw [hnx, normalize_fromRuns _ hgoodF hcharsF]
      rw [map_runMap_id 4 2 _ (fun p hp => by
        have := hrunsF p hp
        omega)]
      rw [map_runMap_id 3 2 _ (fun p hp => by
        have := hrunsF p hp
        omega)]
      rw [braceRuns_idem]
    · rw [hnx, infix_replicate_nl_fromRuns 3 _ 0 (by omega) hcharsF]
      rintro (⟨p, hp, hle⟩ | hle)
      · have := hrunsF p hp
        omega
      · omega

/-- Claim C2, witness: a text with a trailing-whitespace line and a
5-newline run, on which normalization is idempotent and produces no
3-newline run. -/
theorem c2_normalize_idempotent_witness :
    normalize (normalize exWitnessText) = normalize exWitnessText ∧
    ¬ (List.replicate 3 '\n' <:+: normalize exWitnessText) :=
  c2_normalize_idempotent exWitnessText (by decide) (by decide)

end Dsdlc
